import Mathlib

/-!
# Verification of the tracekit core

A shallow embedding of the `tracekit` repository's core crates
(`tracekit-core`: schema, pricing, detectors; `tracekit-ingest`: the
Claude/Codex/OpenCode adapters), with theorems settling the frozen claims
about the natural-language specification.

Modelling conventions:
* Rust `f64` money/confidence values are modelled as exact rationals (`ℚ`);
  the sources only add, multiply and divide decimal constants, so the
  rational model tracks the intended real-number semantics.
* Rust `u64`/`usize` are modelled as `Nat` (no detector arithmetic can
  overflow in the source's intended ranges; token counts are sums of
  parsed non-negative integers).
* Rust `String` is modelled as Lean `String`; `str::to_lowercase` is
  modelled ASCII-wise via `Char.toLower` over the character data (all
  pattern tables and tool names in the source are ASCII).
* `std::collections::HashMap` used *only* through `get`/`insert`/`remove`
  is modelled as an association list with the same lookup semantics.
  Where the source *iterates* a `HashMap` (whose iteration order is
  unspecified in Rust), the model takes the iteration order as an explicit
  reordering parameter; the canonical instantiation uses first-insertion
  order.
* `Finding.description` (a purely presentational formatted string, e.g.
  float formatting `{:.1}M`) is omitted from the model; the `evidence`
  strings, which the claims mention, are modelled faithfully where they
  are built from plain integer formatting, and by their `turn` component
  for the context-bloat/subagent detectors whose evidence text embeds
  float-formatted values.
-/

set_option maxRecDepth 8000

/-! ## Canonical schema (`crates/tracekit-core/src/schema.rs`) -/

inductive Role
  | user
  | assistant
  | system
deriving DecidableEq, Repr

inductive ToolStatus
  | success
  | error
  | unknown
deriving DecidableEq, Repr

structure CanonicalUsage where
  input_tokens : Nat
  output_tokens : Nat
  reasoning_tokens : Nat
  cache_read_tokens : Nat
  cache_write_tokens : Nat
  cost_observed_usd : Option ℚ
  cost_estimated_usd : Option ℚ
  latency_ms : Option Nat
deriving DecidableEq, Repr

/-- `CanonicalUsage::effective_cost`: `self.cost_observed_usd.or(self.cost_estimated_usd)`. -/
def CanonicalUsage.effective_cost (u : CanonicalUsage) : Option ℚ :=
  u.cost_observed_usd.or u.cost_estimated_usd

/-- `CanonicalUsage::total_billed_input`:
`self.input_tokens + self.cache_read_tokens + self.cache_write_tokens`. -/
def CanonicalUsage.total_billed_input (u : CanonicalUsage) : Nat :=
  u.input_tokens + u.cache_read_tokens + u.cache_write_tokens

structure CanonicalTool where
  tool_name : String
  call_id : String
  status : ToolStatus
  error_class : Option String
  error_message : Option String
  args_summary : Option String
  output_summary : Option String
  duration_ms : Option Nat
deriving DecidableEq, Repr

structure CanonicalMessage where
  message_id : String
  session_id : String
  parent_id : Option String
  sequence : Nat
  role : Role
  model : Option String
  /-- timestamp, modelled as epoch milliseconds (`chrono::DateTime` ordering). -/
  ts : Option Int
  usage : Option CanonicalUsage
  tool_calls : List CanonicalTool
  is_sidechain : Bool
  finish_reason : Option String
deriving DecidableEq, Repr

/-- `CanonicalSession`; the filesystem metadata fields (`source_path`,
`source_agent`, `cwd`, `title`), which no modelled operation computes with,
are omitted. -/
structure CanonicalSession where
  session_id : String
  started_at : Option Int
  ended_at : Option Int
  model : Option String
  message_count : Nat
  total_cost_usd : Option ℚ
  total_input_tokens : Nat
  total_output_tokens : Nat
deriving DecidableEq, Repr

structure ParsedSession where
  session : CanonicalSession
  messages : List CanonicalMessage
deriving DecidableEq, Repr

inductive FindingKind
  | retryLoop
  | editCascade
  | toolFanout
  | redundantReread
  | contextBloat
  | errorRepromptChurn
  | subagentOverhead
deriving DecidableEq, Repr

/-- `Finding`, minus the presentational `description` string (see the
module docstring). -/
structure Finding where
  kind : FindingKind
  evidence : List String
  wasted_tokens : Option Nat
  wasted_cost_usd : Option ℚ
  confidence : ℚ
deriving DecidableEq, Repr

/-! ## String helpers: ASCII model of `str::to_lowercase` / `str::contains` -/

/-- ASCII model of `str::to_lowercase`. -/
def lowerStr (s : String) : String :=
  ⟨s.data.map Char.toLower⟩

/-- `pat` occurs as a contiguous sublist of the haystack
(model of `str::contains`). -/
def containsSub (pat : List Char) : List Char → Bool
  | [] => pat.isPrefixOf []
  | c :: t => pat.isPrefixOf (c :: t) || containsSub pat t

/-- Model of `str::contains` on `String`s. -/
def strContains (s pat : String) : Bool :=
  containsSub pat.data s.data

/-! ## Pricing (`crates/tracekit-core/src/pricing.rs`) -/

structure ModelPrice where
  input_per_mtok : ℚ
  output_per_mtok : ℚ
  cache_read_per_mtok : ℚ
  cache_write_per_mtok : ℚ
deriving DecidableEq, Repr

def ModelPrice.new (input output cache_read cache_write : ℚ) : ModelPrice :=
  ⟨input, output, cache_read, cache_write⟩

/-- `ModelPrice::estimate_cost`. -/
def ModelPrice.estimate_cost (p : ModelPrice)
    (input output cache_read cache_write : Nat) : ℚ :=
  (input : ℚ) / 1000000 * p.input_per_mtok
    + (output : ℚ) / 1000000 * p.output_per_mtok
    + (cache_read : ℚ) / 1000000 * p.cache_read_per_mtok
    + (cache_write : ℚ) / 1000000 * p.cache_write_per_mtok

/-- `lookup_price`: the literal if-chain from `pricing.rs`. -/
def lookup_price (model_id : String) : Option ModelPrice :=
  let m := lowerStr model_id
  if strContains m "claude-opus-4" || strContains m "claude-4-opus" then
    some (ModelPrice.new 15 75 1.5 3.75)
  else if strContains m "claude-sonnet-4" || strContains m "claude-4-sonnet"
      || strContains m "claude-4-5" || strContains m "claude-sonnet-4-5" then
    some (ModelPrice.new 3 15 0.3 3.75)
  else if strContains m "claude-haiku-4" || strContains m "claude-4-haiku"
      || strContains m "haiku-4-5" then
    some (ModelPrice.new 0.8 4 0.08 1)
  else if strContains m "claude-3-5-sonnet" || strContains m "claude-3.5-sonnet" then
    some (ModelPrice.new 3 15 0.3 3.75)
  else if strContains m "claude-3-5-haiku" || strContains m "claude-3.5-haiku" then
    some (ModelPrice.new 0.8 4 0.08 1)
  else if strContains m "claude-3-opus" then
    some (ModelPrice.new 15 75 1.5 3.75)
  else if strContains m "claude-3-sonnet" then
    some (ModelPrice.new 3 15 0.3 3.75)
  else if strContains m "claude-3-haiku" then
    some (ModelPrice.new 0.25 1.25 0.03 0.31)
  else if strContains m "claude" then
    some (ModelPrice.new 3 15 0.3 3.75)
  else if strContains m "gpt-5" then
    some (ModelPrice.new 10 40 2.5 10)
  else if strContains m "o3-mini" || strContains m "o4-mini" then
    some (ModelPrice.new 1.1 4.4 0.275 1.1)
  else if strContains m "o3" || strContains m "o4" then
    some (ModelPrice.new 10 40 2.5 10)
  else if strContains m "gpt-4o-mini" then
    some (ModelPrice.new 0.15 0.6 0.075 0.15)
  else if strContains m "gpt-4o" then
    some (ModelPrice.new 2.5 10 1.25 2.5)
  else if strContains m "gpt-4" then
    some (ModelPrice.new 30 60 7.5 30)
  else if strContains m "gpt-3.5" then
    some (ModelPrice.new 0.5 1.5 0.5 0.5)
  else if strContains m "kimi" || strContains m "moonshot" then
    some (ModelPrice.new 0.15 2.5 0.04 0.15)
  else if strContains m "gemini-2.0-flash" then
    some (ModelPrice.new 0.1 0.4 0.025 0.1)
  else if strContains m "gemini-2" then
    some (ModelPrice.new 1.25 5 0.31 1.25)
  else if strContains m "gemini-1.5-pro" then
    some (ModelPrice.new 1.25 5 0.31 1.25)
  else if strContains m "gemini-1.5-flash" then
    some (ModelPrice.new 0.075 0.3 0.02 0.075)
  else
    none

/-- Free function `estimate_cost`. -/
def estimate_cost (model_id : String)
    (input_tokens output_tokens cache_read_tokens cache_write_tokens : Nat) :
    Option ℚ :=
  (lookup_price model_id).map fun price =>
    price.estimate_cost input_tokens output_tokens cache_read_tokens cache_write_tokens

/-- The pricing rules of `lookup_price`, rewritten as the spec describes
them: a fixed *ordered* table of model-family pattern lists, each with its
price. Spec order: specific claude versions first, the generic `"claude"`
fallback after all of them, then the other providers. -/
def price_table : List (List String × ModelPrice) :=
  [ (["claude-opus-4", "claude-4-opus"], ModelPrice.new 15 75 1.5 3.75)
  , (["claude-sonnet-4", "claude-4-sonnet", "claude-4-5", "claude-sonnet-4-5"],
      ModelPrice.new 3 15 0.3 3.75)
  , (["claude-haiku-4", "claude-4-haiku", "haiku-4-5"], ModelPrice.new 0.8 4 0.08 1)
  , (["claude-3-5-sonnet", "claude-3.5-sonnet"], ModelPrice.new 3 15 0.3 3.75)
  , (["claude-3-5-haiku", "claude-3.5-haiku"], ModelPrice.new 0.8 4 0.08 1)
  , (["claude-3-opus"], ModelPrice.new 15 75 1.5 3.75)
  , (["claude-3-sonnet"], ModelPrice.new 3 15 0.3 3.75)
  , (["claude-3-haiku"], ModelPrice.new 0.25 1.25 0.03 0.31)
  , (["claude"], ModelPrice.new 3 15 0.3 3.75)
  , (["gpt-5"], ModelPrice.new 10 40 2.5 10)
  , (["o3-mini", "o4-mini"], ModelPrice.new 1.1 4.4 0.275 1.1)
  , (["o3", "o4"], ModelPrice.new 10 40 2.5 10)
  , (["gpt-4o-mini"], ModelPrice.new 0.15 0.6 0.075 0.15)
  , (["gpt-4o"], ModelPrice.new 2.5 10 1.25 2.5)
  , (["gpt-4"], ModelPrice.new 30 60 7.5 30)
  , (["gpt-3.5"], ModelPrice.new 0.5 1.5 0.5 0.5)
  , (["kimi", "moonshot"], ModelPrice.new 0.15 2.5 0.04 0.15)
  , (["gemini-2.0-flash"], ModelPrice.new 0.1 0.4 0.025 0.1)
  , (["gemini-2"], ModelPrice.new 1.25 5 0.31 1.25)
  , (["gemini-1.5-pro"], ModelPrice.new 1.25 5 0.31 1.25)
  , (["gemini-1.5-flash"], ModelPrice.new 0.075 0.3 0.02 0.075) ]

/-- First-match scan down an ordered pattern table. -/
def firstMatch (m : String) : List (List String × ModelPrice) → Option ModelPrice
  | [] => none
  | e :: rest =>
    if e.1.any fun pat => strContains (lowerStr m) pat then some e.2
    else firstMatch m rest

/-- Spec-side lookup: case-insensitive substring match against the ordered
table, first matching entry wins. -/
def table_lookup (model_id : String) : Option ModelPrice :=
  firstMatch model_id price_table

/-! ## Detectors (`crates/tracekit-core/src/detectors.rs`) -/

/-- The per-sequence cost lookup built at the top of `detect_inefficiencies`
(`HashMap` collected from an iterator: on duplicate keys the later entry
wins, hence the `foldl`). -/
def cost_map (msgs : List CanonicalMessage) (seq : Nat) : Option ℚ :=
  (msgs.filterMap fun m =>
      (m.usage.bind CanonicalUsage.effective_cost).map fun c => (m.sequence, c)).foldl
    (fun acc e => if e.1 = seq then some e.2 else acc) none

def assistantMessages (msgs : List CanonicalMessage) : List CanonicalMessage :=
  msgs.filter fun m => m.role == Role.assistant

/-- `HashMap<String, Vec<usize>>::entry(k).or_default().push(v)` on an
insertion-ordered association list. -/
def pushEntry (k : String) (v : Nat) : List (String × List Nat) → List (String × List Nat)
  | [] => [(k, [v])]
  | e :: rest => if e.1 = k then (e.1, e.2 ++ [v]) :: rest else e :: pushEntry k v rest

def lookupEntry (k : String) : List (String × List Nat) → Option (List Nat)
  | [] => none
  | e :: rest => if e.1 = k then some e.2 else lookupEntry k rest

/-- `HashMap::remove(k)` on an association list. -/
def removeEntry (k : String) (l : List (String × List Nat)) : List (String × List Nat) :=
  l.filter fun e => !(e.1 == k)

/-- `HashMap<String, usize>::insert(k, v)` (overwrite) on an association list. -/
def setEntryNat (k : String) (v : Nat) : List (String × Nat) → List (String × Nat)
  | [] => [(k, v)]
  | e :: rest => if e.1 = k then (k, v) :: rest else e :: setEntryNat k v rest

def lookupNat (k : String) : List (String × Nat) → Option Nat
  | [] => none
  | e :: rest => if e.1 = k then some e.2 else lookupNat k rest

/-- `*counts.entry(name).or_default() += 1` on an association list. -/
def incEntry (k : String) : List (String × Nat) → List (String × Nat)
  | [] => [(k, 1)]
  | e :: rest => if e.1 = k then (e.1, e.2 + 1) :: rest else e :: incEntry k rest

/-! ### Retry loops -/

/-- The look-ahead chain extension: `assistant_msgs.iter().skip(i+1).take(5)`,
pushing while the same tool name reappears, breaking at the first miss. -/
def retryChain (name : String) (rest : List CanonicalMessage) : List Nat :=
  ((rest.take 5).takeWhile fun next =>
      next.tool_calls.any fun t => t.tool_name == name).map
    CanonicalMessage.sequence

def mkRetryFinding (cm : Nat → Option ℚ) (chain : List (Nat × String)) : Finding :=
  let wasted : ℚ := (chain.tail.filterMap fun e => cm e.1).sum
  { kind := .retryLoop
  , evidence := chain.map fun e => "turn " ++ toString e.1 ++ ": " ++ e.2
  , wasted_tokens := none
  , wasted_cost_usd := if 0 < wasted then some wasted else none
  , confidence := 0.85 }

/-- The inner `for err_tool in &error_calls` loop of `detect_retry_loops`,
threading the `reported` set. -/
def retryFromMsg (cm : Nat → Option ℚ) (amsg : CanonicalMessage)
    (rest : List CanonicalMessage) :
    List CanonicalTool → List (Nat × String) → List Finding × List (Nat × String)
  | [], reported => ([], reported)
  | t :: ts, reported =>
    if (amsg.sequence, t.tool_name) ∈ reported then
      retryFromMsg cm amsg rest ts reported
    else
      let chain := (amsg.sequence, t.tool_name) ::
        (retryChain t.tool_name rest).map fun s => (s, t.tool_name)
      if 2 ≤ chain.length then
        let res := retryFromMsg cm amsg rest ts (reported ++ chain)
        (mkRetryFinding cm chain :: res.1, res.2)
      else
        retryFromMsg cm amsg rest ts reported

/-- The outer loop of `detect_retry_loops` over assistant messages. -/
def retryLoopsAux (cm : Nat → Option ℚ) :
    List CanonicalMessage → List (Nat × String) → List Finding
  | [], _ => []
  | amsg :: rest, reported =>
    let er := amsg.tool_calls.filter fun t => t.status == ToolStatus.error
    let step := retryFromMsg cm amsg rest er reported
    step.1 ++ retryLoopsAux cm rest step.2

def detect_retry_loops (msgs : List CanonicalMessage) (cm : Nat → Option ℚ) :
    List Finding :=
  retryLoopsAux cm (assistantMessages msgs) []

/-! ### Edit cascades -/

def edit_tools : List String :=
  ["edit", "write", "str_replace_based_edit", "apply_patch",
   "str_replace_editor", "replace_in_file"]

/-- One tool of the `file_edits` grouping loop of `detect_edit_cascades`. -/
def editGroupStep (seqn : Nat) (acc2 : List (String × List Nat))
    (tool : CanonicalTool) : List (String × List Nat) :=
  if (edit_tools.any fun e => strContains (lowerStr tool.tool_name) e)
      && tool.status == ToolStatus.error then
    match tool.args_summary with
    | some args => pushEntry args seqn acc2
    | none => acc2
  else acc2

/-- The `file_edits` grouping map of `detect_edit_cascades`, in
first-insertion order. -/
def editGroups (msgs : List CanonicalMessage) : List (String × List Nat) :=
  (assistantMessages msgs).foldl
    (fun acc amsg => amsg.tool_calls.foldl (editGroupStep amsg.sequence) acc)
    []

def mkCascadeFinding (cm : Nat → Option ℚ) (e : String × List Nat) : Finding :=
  let wasted : ℚ := (e.2.tail.filterMap cm).sum
  { kind := .editCascade
  , evidence := e.2.map fun s => "turn " ++ toString s
  , wasted_tokens := none
  , wasted_cost_usd := if 0 < wasted then some wasted else none
  , confidence := 0.8 }

/-- `detect_edit_cascades`, parameterized by the `HashMap` iteration order
(`for (path, seqs) in &file_edits`). -/
def detect_edit_cascadesOrd
    (ord : List (String × List Nat) → List (String × List Nat))
    (msgs : List CanonicalMessage) (cm : Nat → Option ℚ) : List Finding :=
  (ord (editGroups msgs)).filterMap fun e =>
    if 2 ≤ e.2.length then some (mkCascadeFinding cm e) else none

def detect_edit_cascades (msgs : List CanonicalMessage) (cm : Nat → Option ℚ) :
    List Finding :=
  detect_edit_cascadesOrd id msgs cm

/-! ### Tool fan-out -/

def countTools (ts : List CanonicalTool) : List (String × Nat) :=
  ts.foldl (fun acc t => incEntry t.tool_name acc) []

/-- `detect_tool_fanout`, parameterized by the per-message `counts`
iteration order. -/
def detect_tool_fanoutOrd (ord : List (String × Nat) → List (String × Nat))
    (msgs : List CanonicalMessage) : List Finding :=
  ((assistantMessages msgs).map fun amsg =>
    (ord (countTools amsg.tool_calls)).filterMap fun e =>
      if 4 ≤ e.2 then
        some { kind := .toolFanout
             , evidence := ["turn " ++ toString amsg.sequence]
             , wasted_tokens := none
             , wasted_cost_usd := none
             , confidence := 0.7 }
      else none).flatten

def detect_tool_fanout (msgs : List CanonicalMessage) : List Finding :=
  detect_tool_fanoutOrd id msgs

/-! ### Redundant re-reads -/

def read_tools : List String := ["read", "cat", "view", "open", "read_file"]

def write_tools : List String :=
  ["write", "edit", "str_replace", "apply_patch", "replace_in_file",
   "create_file", "delete_file"]

/-- The read branch of `detect_redundant_rereads`: fetch-or-create the
entry, push the new sequence if every tracked read is strictly after the
last write, otherwise reset the list to just the new sequence. -/
def updateReread (k : String) (last_write seqn : Nat) :
    List (String × List Nat) → List (String × List Nat)
  | [] => [(k, [seqn])]
  | e :: rest =>
    if e.1 = k then
      (k, if e.2.all fun s => decide (last_write < s) then e.2 ++ [seqn] else [seqn]) :: rest
    else e :: updateReread k last_write seqn rest

structure RereadState where
  last_written : List (String × Nat)
  read_count : List (String × List Nat)
deriving DecidableEq, Repr

def isReadTool (t : CanonicalTool) : Bool :=
  read_tools.any fun r => strContains (lowerStr t.tool_name) r

def isWriteTool (t : CanonicalTool) : Bool :=
  write_tools.any fun w => strContains (lowerStr t.tool_name) w

/-- One tool event (`(sequence, tool)`) of the re-read tracking loop. -/
def rereadStep (st : RereadState) (ev : Nat × CanonicalTool) : RereadState :=
  match ev.2.args_summary with
  | none => st
  | some key =>
    if isWriteTool ev.2 then
      { last_written := setEntryNat key ev.1 st.last_written
      , read_count := removeEntry key st.read_count }
    else if isReadTool ev.2 then
      let lw := (lookupNat key st.last_written).getD 0
      { st with read_count := updateReread key lw ev.1 st.read_count }
    else st

/-- The flattened `(sequence, tool)` event stream of the nested
`for amsg in assistant_msgs { for tool in amsg.tool_calls }` loops. -/
def toolEvents (msgs : List CanonicalMessage) : List (Nat × CanonicalTool) :=
  ((assistantMessages msgs).map fun amsg =>
    amsg.tool_calls.map fun t => (amsg.sequence, t)).flatten

def rereadScan (msgs : List CanonicalMessage) : RereadState :=
  (toolEvents msgs).foldl rereadStep ⟨[], []⟩

def mkRereadFinding (e : String × List Nat) : Finding :=
  { kind := .redundantReread
  , evidence := e.2.map fun s => "turn " ++ toString s
  , wasted_tokens := none
  , wasted_cost_usd := none
  , confidence := 0.75 }

/-- `detect_redundant_rereads`, parameterized by the final `read_count`
iteration order. -/
def detect_redundant_rereadsOrd
    (ord : List (String × List Nat) → List (String × List Nat))
    (msgs : List CanonicalMessage) : List Finding :=
  (ord (rereadScan msgs).read_count).filterMap fun e =>
    if 3 ≤ e.2.length then some (mkRereadFinding e) else none

def detect_redundant_rereads (msgs : List CanonicalMessage) : List Finding :=
  detect_redundant_rereadsOrd id msgs

/-! ### Context bloat -/

/-- The `billed_counts` vector: `(sequence, total_billed_input, cost)` for
every assistant message with an effective cost. -/
def billed_counts (msgs : List CanonicalMessage) : List (Nat × Nat × ℚ) :=
  (assistantMessages msgs).filterMap fun m =>
    m.usage.bind fun u =>
      u.effective_cost.map fun c => (m.sequence, u.total_billed_input, c)

/-- The mean of `total_billed_input` over `billed_counts`. -/
def meanBilled (msgs : List CanonicalMessage) : ℚ :=
  ((billed_counts msgs).map fun e => ((e.2.1 : ℚ))).sum / ((billed_counts msgs).length : ℚ)

/-- `(mean * 2.5) as u64`: truncation toward zero, saturating at 0. -/
def bloatThreshold (msgs : List CanonicalMessage) : Nat :=
  (⌊meanBilled msgs * 2.5⌋).toNat

/-- The finding pushed for a flagged turn; `excess` is
`total_billed.saturating_sub(mean as u64)`. -/
def mkBloatFinding (mean : ℚ) (e : Nat × Nat × ℚ) : Finding :=
  let excess : Nat := e.2.1 - (⌊mean⌋).toNat
  { kind := .contextBloat
  , evidence := ["turn " ++ toString e.1]
  , wasted_tokens := some excess
  , wasted_cost_usd :=
      if 0 < e.2.1 then some (e.2.2 * ((excess : ℚ) / (e.2.1 : ℚ))) else none
  , confidence := 0.7 }

def detect_context_bloat (msgs : List CanonicalMessage) : List Finding :=
  if (billed_counts msgs).length < 3 then []
  else
    (billed_counts msgs).filterMap fun e =>
      if bloatThreshold msgs < e.2.1 && (200000 : Nat) < e.2.1 then
        some (mkBloatFinding (meanBilled msgs) e)
      else none

/-! ### Error–reprompt churn -/

structure ChurnState where
  consecutive_errors : Nat
  error_start_seq : Nat
  error_end_seq : Nat
  churn_seqs : List Nat
  prev_error_tools : List String
  reported_churn : List Nat
  findings : List Finding
deriving Repr

def mkChurnFinding (cm : Nat → Option ℚ) (st : ChurnState) : Finding :=
  let wasted : ℚ := (st.churn_seqs.tail.filterMap cm).sum
  { kind := .errorRepromptChurn
  , evidence := ["turns " ++ toString st.error_start_seq ++ "-"
                  ++ toString st.error_end_seq]
  , wasted_tokens := none
  , wasted_cost_usd := if 0 < wasted then some wasted else none
  , confidence := 0.8 }

def churnStep (cm : Nat → Option ℚ) (st : ChurnState) (amsg : CanonicalMessage) :
    ChurnState :=
  let error_tools :=
    (amsg.tool_calls.filter fun t => t.status == ToolStatus.error).map
      CanonicalTool.tool_name
  if error_tools.isEmpty then
    if 3 ≤ st.consecutive_errors ∧ st.error_start_seq ∉ st.reported_churn then
      { st with
        consecutive_errors := 0
        churn_seqs := []
        prev_error_tools := []
        reported_churn := st.error_start_seq :: st.reported_churn
        findings := st.findings ++ [mkChurnFinding cm st] }
    else
      { st with consecutive_errors := 0, churn_seqs := [], prev_error_tools := [] }
  else
    let same_error := !st.prev_error_tools.isEmpty
      && error_tools.any fun e => st.prev_error_tools.contains e
    if same_error then
      { st with
        consecutive_errors := st.consecutive_errors + 1
        error_end_seq := amsg.sequence
        churn_seqs := st.churn_seqs ++ [amsg.sequence]
        prev_error_tools := error_tools }
    else
      { st with
        consecutive_errors := 1
        error_start_seq := amsg.sequence
        error_end_seq := amsg.sequence
        churn_seqs := [amsg.sequence]
        prev_error_tools := error_tools }

def detect_error_reprompt_churn (msgs : List CanonicalMessage)
    (cm : Nat → Option ℚ) : List Finding :=
  let final := (assistantMessages msgs).foldl (churnStep cm) ⟨0, 0, 0, [], [], [], []⟩
  if 3 ≤ final.consecutive_errors ∧ final.error_start_seq ∉ final.reported_churn then
    final.findings ++ [mkChurnFinding cm final]
  else final.findings

/-! ### Sub-agent overhead -/

def detect_subagent_overhead (msgs : List CanonicalMessage) : List Finding :=
  let sidechain := msgs.filter fun m => m.is_sidechain
  if sidechain.length = 0 then []
  else
    let sidechain_cost : ℚ :=
      (sidechain.filterMap fun m => m.usage.bind CanonicalUsage.effective_cost).sum
    let sidechain_tokens : Nat :=
      ((sidechain.filterMap fun m => m.usage).map fun u =>
        u.total_billed_input + u.output_tokens).sum
    [ { kind := .subagentOverhead
      , evidence := [toString sidechain.length ++ " subagent turns"]
      , wasted_tokens := some (sidechain_tokens / 4)
      , wasted_cost_usd :=
          if 0 < sidechain_cost then some (sidechain_cost * 0.25) else none
      , confidence := 0.5 } ]

/-! ### The pipeline -/

def findingCost (f : Finding) : ℚ := f.wasted_cost_usd.getD 0

/-- The sort comparator: wasted cost descending (missing cost as zero);
`partial_cmp` never returns `None` in the rational model, so the
`unwrap_or(Equal)` degenerates to the total order on `ℚ`. -/
def findingLE (a b : Finding) : Bool := decide (findingCost b ≤ findingCost a)

/-- The three `HashMap` iteration orders the detector pass consumes
(Rust leaves them unspecified). -/
structure DetectorOrders where
  editOrder : List (String × List Nat) → List (String × List Nat)
  rereadOrder : List (String × List Nat) → List (String × List Nat)
  fanoutOrder : List (String × Nat) → List (String × Nat)

/-- An iteration order is valid when it yields the map's entries in some
order, i.e. a permutation of them. -/
def DetectorOrders.Valid (o : DetectorOrders) : Prop :=
  (∀ l, (o.editOrder l).Perm l) ∧ (∀ l, (o.rereadOrder l).Perm l)
    ∧ (∀ l, (o.fanoutOrder l).Perm l)

def canonicalOrders : DetectorOrders := ⟨id, id, id⟩

/-- `detect_inefficiencies`, parameterized by the iteration orders. -/
def detect_inefficienciesOrd (o : DetectorOrders) (parsed : ParsedSession) :
    List Finding :=
  let msgs := parsed.messages
  let cm := cost_map msgs
  let findings :=
    detect_retry_loops msgs cm
      ++ detect_edit_cascadesOrd o.editOrder msgs cm
      ++ detect_tool_fanoutOrd o.fanoutOrder msgs
      ++ detect_redundant_rereadsOrd o.rereadOrder msgs
      ++ detect_context_bloat msgs
      ++ detect_error_reprompt_churn msgs cm
      ++ detect_subagent_overhead msgs
  findings.mergeSort findingLE

/-- `detect_inefficiencies` with the canonical (first-insertion)
iteration orders. -/
def detect_inefficiencies (parsed : ParsedSession) : List Finding :=
  detect_inefficienciesOrd canonicalOrders parsed

/-! ## Aggregation (`ParsedSession::compute_totals`, `schema.rs`) -/

/-- The linear most-frequent scan over the sorted model list
(`best/cur` counters), including the final `if cur_count > best_count`
flush that does not update `best_count`. -/
def scanBest : List String → String → Nat → String → Nat → String
  | [], best, bestc, cur, curc => if bestc < curc then cur else best
  | m :: rest, best, bestc, cur, curc =>
    if m = cur then scanBest rest best bestc cur (curc + 1)
    else if bestc < curc then scanBest rest cur curc m 1
    else scanBest rest best bestc m 1

/-- "Pick the most common model": sort, then linear scan. -/
def mostCommonModel (models : List String) : Option String :=
  match models.mergeSort fun a b => decide (a ≤ b) with
  | [] => none
  | m :: rest => some (scanBest rest m 1 m 1)

/-- `ParsedSession::compute_totals` (the `&mut self` update modelled as a
function returning the updated session). -/
def compute_totals (p : ParsedSession) : ParsedSession :=
  let usages := p.messages.filterMap fun m => m.usage
  let total_input : Nat := usages.foldl (fun a u => a + u.input_tokens) 0
  let total_output : Nat := usages.foldl (fun a u => a + u.output_tokens) 0
  let costs := p.messages.filterMap fun m => m.usage.bind CanonicalUsage.effective_cost
  let has_cost := !costs.isEmpty
  let total_cost : ℚ := costs.foldl (· + ·) 0
  let total_cache : Nat :=
    (usages.map fun u => u.cache_read_tokens + u.cache_write_tokens).sum
  let timestamps := p.messages.filterMap fun m => m.ts
  let models := p.messages.filterMap fun m => m.model
  { p with session :=
    { p.session with
      total_input_tokens := total_input + total_cache
      total_output_tokens := total_output
      total_cost_usd := if has_cost then some total_cost else p.session.total_cost_usd
      message_count := p.messages.length
      started_at := p.session.started_at.or timestamps.min?
      ended_at := p.session.ended_at.or timestamps.max?
      model := p.session.model.or (mostCommonModel models) } }

/-! ## String truncation helper (`s.chars().take(n).collect()`) -/

def takeStr (n : Nat) (s : String) : String :=
  ⟨s.data.take n⟩

def isPrefixStr (s pat : String) : Bool :=
  pat.data.isPrefixOf s.data

/-! ## Claude adapter (`crates/tracekit-ingest/src/claude.rs`) -/

/-- Abstract post-deserialization view of one line of a Claude session
file. `tool_use` content blocks are abstracted to
`(id, name, args_summary)` (the `extract_args_key` result), `tool_result`
blocks to `(tool_use_id, is_error, extracted error text)`, the usage JSON
object to its four token counts. Blank, unparsable and untyped lines all
behave as `other`. -/
inductive CRecord
  | assistant (msg_id : String) (parent_id : Option String)
      (model : Option String) (ts : Option Int)
      (usageRaw : Option (Nat × Nat × Nat × Nat))
      (tools : List (String × String × Option String))
      (sidechainFlag : Bool) (stop_reason : Option String)
  | user (msg_id : String) (parent_id : Option String) (ts : Option Int)
      (results : List (String × Bool × Option String))
  | other
deriving DecidableEq, Repr

/-- `extract_claude_usage`: token counts default to 0 (already folded into
the abstract record), observed cost always absent, estimated cost priced
from the message model. -/
def extract_claude_usage (raw : Option (Nat × Nat × Nat × Nat))
    (model : Option String) : Option CanonicalUsage :=
  raw.map fun r =>
    { input_tokens := r.1
    , output_tokens := r.2.1
    , reasoning_tokens := 0
    , cache_read_tokens := r.2.2.1
    , cache_write_tokens := r.2.2.2
    , cost_observed_usd := none
    , cost_estimated_usd := model.bind fun m => estimate_cost m r.1 r.2.1 r.2.2.1 r.2.2.2
    , latency_ms := none }

/-- Update the first tool with the given `call_id` in a message's tool
list (the inner `for tool in msg.tool_calls.iter_mut()` with `break`). -/
def updFirstTool (id : String) (f : CanonicalTool → CanonicalTool) :
    List CanonicalTool → List CanonicalTool
  | [] => []
  | t :: ts => if t.call_id = id then f t :: ts else t :: updFirstTool id f ts

def msgHasCall (id : String) (m : CanonicalMessage) : Bool :=
  m.tool_calls.any fun t => t.call_id == id

/-- Update the *last* message containing the given call id (the
`messages.iter_mut().rev()` search with `break`). -/
def updLastMsg (id : String) (f : CanonicalTool → CanonicalTool) :
    List CanonicalMessage → List CanonicalMessage
  | [] => []
  | m :: ms =>
    if ms.any (msgHasCall id) then m :: updLastMsg id f ms
    else if msgHasCall id m then
      { m with tool_calls := updFirstTool id f m.tool_calls } :: ms
    else m :: ms

/-- How a `tool_result` block resolves a pending claude tool call. -/
def resolveTool (is_error : Bool) (errText : Option String)
    (t : CanonicalTool) : CanonicalTool :=
  { t with
    status := if is_error then ToolStatus.error else ToolStatus.success
    error_message := if is_error then errText.map (takeStr 200) else none
    error_class := if is_error then some "tool_error" else t.error_class }

structure ClaudeFileState where
  messages : List CanonicalMessage
  seq : Nat
  pending : List String
deriving Repr

/-- One `tool_result` block: update only while the id is in the pending
table, then remove it. -/
def applyResult (acc : List CanonicalMessage × List String)
    (r : String × Bool × Option String) : List CanonicalMessage × List String :=
  if r.1 ∈ acc.2 then
    (updLastMsg r.1 (resolveTool r.2.1 r.2.2) acc.1, acc.2.filter fun x => !(x == r.1))
  else acc

/-- The tool list built from an assistant record's `tool_use` blocks
(each created with status `unknown`). -/
def newToolsOf (tools : List (String × String × Option String)) :
    List CanonicalTool :=
  tools.map fun tr =>
    { tool_name := tr.2.1, call_id := tr.1, status := ToolStatus.unknown
    , error_class := none, error_message := none
    , args_summary := tr.2.2, output_summary := none, duration_ms := none }

/-- The canonical message pushed for an `assistant` record. -/
def claudeAssistantMessage (session_id : String) (is_sidechain : Bool)
    (seq1 : Nat) (mid : String) (parent model : Option String) (ts : Option Int)
    (usageRaw : Option (Nat × Nat × Nat × Nat))
    (tools : List (String × String × Option String)) (scFlag : Bool)
    (stop : Option String) : CanonicalMessage :=
  { message_id := mid, session_id := session_id, parent_id := parent
  , sequence := seq1, role := Role.assistant, model := model, ts := ts
  , usage := extract_claude_usage usageRaw model
  , tool_calls := newToolsOf tools
  , is_sidechain := is_sidechain || scFlag, finish_reason := stop }

/-- One line of `parse_jsonl_file`. -/
def claudeFileStep (session_id : String) (is_sidechain : Bool)
    (st : ClaudeFileState) (r : CRecord) : ClaudeFileState :=
  match r with
  | .assistant mid parent model ts usageRaw tools scFlag stop =>
    { messages := st.messages ++
        [claudeAssistantMessage session_id is_sidechain (st.seq + 1) mid parent
          model ts usageRaw tools scFlag stop]
    , seq := st.seq + 1
    , pending := tools.foldl (fun p tr => if tr.1 ∈ p then p else p ++ [tr.1]) st.pending }
  | .user mid parent ts results =>
    let resolved := results.foldl applyResult (st.messages, st.pending)
    { messages := resolved.1 ++
        [{ message_id := mid, session_id := session_id, parent_id := parent
         , sequence := st.seq + 1, role := Role.user, model := none, ts := ts
         , usage := none, tool_calls := []
         , is_sidechain := is_sidechain, finish_reason := none }]
    , seq := st.seq + 1
    , pending := resolved.2 }
  | .other => st

/-- `parse_jsonl_file`: fold a file's records; the pending-call table is
local to the file, the message list and sequence counter are shared. -/
def claudeRunFile (session_id : String) (is_sidechain : Bool)
    (msgs : List CanonicalMessage) (seq : Nat) (rs : List CRecord) :
    List CanonicalMessage × Nat :=
  let st := rs.foldl (claudeFileStep session_id is_sidechain) ⟨msgs, seq, []⟩
  (st.messages, st.seq)

/-- `messages.sort_by_key(|m| m.sequence)` (stable). -/
def sortBySequence (msgs : List CanonicalMessage) : List CanonicalMessage :=
  msgs.mergeSort fun a b => decide (a.sequence ≤ b.sequence)

/-- `claude::parse_session`: main file, then the sub-agent files (tagged
side-chain, same sequence counter), then sort by sequence. -/
def claude_parse_session (session_id : String) (main : List CRecord)
    (subagents : List (List CRecord)) : List CanonicalMessage :=
  let after_main := claudeRunFile session_id false [] 0 main
  let after_subs := subagents.foldl
    (fun acc rs => claudeRunFile session_id true acc.1 acc.2 rs) after_main
  sortBySequence after_subs.1

/-! ## Codex adapter (`crates/tracekit-ingest/src/codex.rs`) -/

/-- `output_looks_like_error`. -/
def output_looks_like_error (output : String) : Bool :=
  let lower := lowerStr output
  (strContains lower "error"
      && (strContains lower "exit code" || strContains lower "failed"
          || strContains lower "not found"))
    || isPrefixStr lower "error:"
    || strContains lower "command not found"
    || strContains lower "permission denied"
    || strContains lower "no such file or directory"
    || (strContains lower "process exited with code" && !(strContains lower "code 0"))

/-- Abstract view of one line of a Codex rollout file. `agentMessage`
covers both the `"agent_message"` and `"task_complete"` payload types
(identical handling); `other` covers `session_meta`, `event_msg`, blank
and unparsable lines. -/
inductive XRecord
  | userMessage (ts : Option Int)
  | functionCall (ts : Option Int) (call_id : String) (name : String)
      (args_summary : Option String)
  | functionCallOutput (call_id : String) (output : String)
  | agentMessage
  | customToolCall (call_id : String) (name : String)
  | customToolCallOutput (call_id : String) (output : String)
  | other
deriving DecidableEq, Repr

structure CodexState where
  messages : List CanonicalMessage
  seq : Nat
  current_tool_calls : List CanonicalTool
  pending_calls : List (String × String)
  current_ts : Option Int
  in_turn : Bool
deriving Repr

/-- `flush_assistant_turn` (`std::mem::take` empties the buffer). -/
def flush_assistant_turn (session_id : String) (model : Option String)
    (st : CodexState) : CodexState :=
  { st with
    seq := st.seq + 1
    messages := st.messages ++
      [{ message_id := "asst-" ++ toString (st.seq + 1), session_id := session_id
       , parent_id := none, sequence := st.seq + 1, role := Role.assistant
       , model := model, ts := st.current_ts, usage := none
       , tool_calls := st.current_tool_calls
       , is_sidechain := false, finish_reason := none }]
    current_tool_calls := [] }

/-- How a `function_call_output` record resolves the first matching
in-turn call. -/
def resolveCodexOutput (output : String) (t : CanonicalTool) : CanonicalTool :=
  let is_error := output_looks_like_error output
  { t with
    status := if is_error then ToolStatus.error else ToolStatus.success
    error_class := if is_error then some "exec_error" else t.error_class
    error_message := if is_error then some (takeStr 200 output) else t.error_message
    output_summary := if is_error then t.output_summary else some (takeStr 100 output) }

/-- How a `custom_tool_call_output` record resolves the first matching
in-turn call (no output summary on success). -/
def resolveCodexCustomOutput (output : String) (t : CanonicalTool) : CanonicalTool :=
  let is_error := output_looks_like_error output
  { t with
    status := if is_error then ToolStatus.error else ToolStatus.success
    error_class := if is_error then some "exec_error" else t.error_class
    error_message := if is_error then some (takeStr 200 output) else t.error_message }

def setPending (cid name : String) : List (String × String) → List (String × String)
  | [] => [(cid, name)]
  | e :: rest => if e.1 = cid then (cid, name) :: rest else e :: setPending cid name rest

/-- One line of `codex::parse_session`. -/
def codexStep (session_id : String) (model : Option String)
    (st : CodexState) (r : XRecord) : CodexState :=
  match r with
  | .userMessage ts =>
    let st1 := if st.in_turn
      then { flush_assistant_turn session_id model st with in_turn := false }
      else st
    { st1 with
      seq := st1.seq + 1
      messages := st1.messages ++
        [{ message_id := "user-" ++ toString (st1.seq + 1), session_id := session_id
         , parent_id := none, sequence := st1.seq + 1, role := Role.user
         , model := none, ts := ts, usage := none, tool_calls := []
         , is_sidechain := false, finish_reason := none }]
      in_turn := true
      current_ts := ts }
  | .functionCall ts cid name args =>
    { st with
      in_turn := true
      current_ts := if st.current_ts = none then ts else st.current_ts
      pending_calls := setPending cid name st.pending_calls
      current_tool_calls := st.current_tool_calls ++
        [{ tool_name := name, call_id := cid, status := ToolStatus.unknown
         , error_class := none, error_message := none, args_summary := args
         , output_summary := none, duration_ms := none }] }
  | .functionCallOutput cid output =>
    { st with current_tool_calls :=
        updFirstTool cid (resolveCodexOutput output) st.current_tool_calls }
  | .agentMessage =>
    if st.in_turn || !st.current_tool_calls.isEmpty then
      { flush_assistant_turn session_id model st with
          in_turn := false, current_ts := none }
    else st
  | .customToolCall cid name =>
    { st with
      in_turn := true
      pending_calls := setPending cid name st.pending_calls
      current_tool_calls := st.current_tool_calls ++
        [{ tool_name := name, call_id := cid, status := ToolStatus.unknown
         , error_class := none, error_message := none, args_summary := none
         , output_summary := none, duration_ms := none }] }
  | .customToolCallOutput cid output =>
    { st with current_tool_calls :=
        updFirstTool cid (resolveCodexCustomOutput output) st.current_tool_calls }
  | .other => st

def codexInit : CodexState := ⟨[], 0, [], [], none, false⟩

/-- `codex::parse_session`: fold the lines, then flush any open turn. -/
def codex_parse_session (session_id : String) (model : Option String)
    (rs : List XRecord) : List CanonicalMessage :=
  let fin := rs.foldl (codexStep session_id model) codexInit
  if fin.in_turn || !fin.current_tool_calls.isEmpty then
    (flush_assistant_turn session_id model fin).messages
  else fin.messages

/-! ## OpenCode adapter (`crates/tracekit-ingest/src/opencode.rs`) -/

/-- Abstract view of one part file of an OpenCode message. -/
inductive OPart
  | stepFinish (cost : Option ℚ) (tokens : Option (Nat × Nat × Nat × Nat × Nat))
  | tool (call_id : String) (tool_name : String) (status_str : String)
      (args : Option String) (outputText : Option String)
      (timeStart timeEnd : Option Nat)
  | otherPart
deriving Repr

/-- Abstract view of one (readable, JSON-parsable) OpenCode message file;
`parts = none` models an absent part directory. -/
structure OMessageFile where
  msg_id : String
  role_str : String
  model : Option String
  parent_id : Option String
  time_created : Option Nat
  time_completed : Option Nat
  cost : Option ℚ
  tokens : Option (Nat × Nat × Nat × Nat × Nat)
  finish : Option String
  parts : Option (List OPart)
deriving Repr

/-- `extract_opencode_usage`. -/
def extract_opencode_usage (tokens : Option (Nat × Nat × Nat × Nat × Nat))
    (cost : Option ℚ) (latency : Option Nat) (model : Option String) :
    Option CanonicalUsage :=
  tokens.map fun tk =>
    { input_tokens := tk.1, output_tokens := tk.2.1, reasoning_tokens := tk.2.2.1
    , cache_read_tokens := tk.2.2.2.1, cache_write_tokens := tk.2.2.2.2
    , cost_observed_usd := cost
    , cost_estimated_usd :=
        if cost = none then
          model.bind fun m => estimate_cost m tk.1 tk.2.1 tk.2.2.2.1 tk.2.2.2.2
        else none
    , latency_ms := latency }

/-- The `step-finish` accumulation of `load_parts`. -/
def mergeStepUsage (model : Option String) (acc : Option CanonicalUsage)
    (cost : Option ℚ) (tk : Nat × Nat × Nat × Nat × Nat) : Option CanonicalUsage :=
  match acc with
  | some existing => some
    { existing with
      input_tokens := existing.input_tokens + tk.1
      output_tokens := existing.output_tokens + tk.2.1
      reasoning_tokens := existing.reasoning_tokens + tk.2.2.1
      cache_read_tokens := existing.cache_read_tokens + tk.2.2.2.1
      cache_write_tokens := existing.cache_write_tokens + tk.2.2.2.2
      cost_observed_usd :=
        match cost with
        | some c => some ((existing.cost_observed_usd.getD 0) + c)
        | none => existing.cost_observed_usd }
  | none => some
    { input_tokens := tk.1, output_tokens := tk.2.1, reasoning_tokens := tk.2.2.1
    , cache_read_tokens := tk.2.2.2.1, cache_write_tokens := tk.2.2.2.2
    , cost_observed_usd := cost
    , cost_estimated_usd :=
        if cost = none then
          model.bind fun m => estimate_cost m tk.1 tk.2.1 tk.2.2.2.1 tk.2.2.2.2
        else none
    , latency_ms := none }

def opartToolStatus (s : String) : ToolStatus :=
  if s = "completed" then ToolStatus.success
  else if s = "error" then ToolStatus.error
  else ToolStatus.unknown

/-- `load_parts`: fold the (filename-sorted) part files into the tool
list and the accumulated step usage. -/
def load_parts (model : Option String) (parts : List OPart) :
    List CanonicalTool × Option CanonicalUsage :=
  parts.foldl
    (fun acc p =>
      match p with
      | .stepFinish cost tokens =>
        match tokens with
        | some tk => (acc.1, mergeStepUsage model acc.2 cost tk)
        | none => acc
      | .tool cid name status_str args outputText tS tE =>
        let status := opartToolStatus status_str
        (acc.1 ++
          [{ tool_name := name, call_id := cid, status := status
           , error_class := if status == ToolStatus.error then some "tool_error" else none
           , error_message := if status == ToolStatus.error then outputText.map (takeStr 200) else none
           , args_summary := args, output_summary := none
           , duration_ms :=
               match tS, tE with
               | some s, some e => if s ≤ e then some (e - s) else none
               | _, _ => none }], acc.2)
      | .otherPart => acc)
    ([], none)

/-- One message file of `opencode::parse_session`. -/
def opencodeMessage (session_id : String) (seqn : Nat) (f : OMessageFile) :
    CanonicalMessage :=
  let role := if f.role_str = "assistant" then Role.assistant else Role.user
  let latency :=
    match f.time_created, f.time_completed with
    | some s, some e => if s ≤ e then some (e - s) else none
    | _, _ => none
  let direct_usage := extract_opencode_usage f.tokens f.cost latency f.model
  let loaded := match f.parts with
    | some ps => load_parts f.model ps
    | none => ([], none)
  { message_id := f.msg_id, session_id := session_id, parent_id := f.parent_id
  , sequence := seqn, role := role, model := f.model
  , ts := f.time_created.map Int.ofNat
  , usage := loaded.2.or direct_usage
  , tool_calls := loaded.1
  , is_sidechain := false, finish_reason := f.finish }

/-- `opencode::parse_session`: the message files in filename-sorted order;
`none` entries model unreadable/unparsable files (skipped before the
sequence counter is incremented). -/
def opencode_parse_session (session_id : String)
    (files : List (Option OMessageFile)) : List CanonicalMessage :=
  (files.foldl
    (fun acc f =>
      match f with
      | none => acc
      | some mf => (acc.1 ++ [opencodeMessage session_id (acc.2 + 1) mf], acc.2 + 1))
    ([], 0)).1

/-! ## Theorems -/

/-- C2. `lookup_price` matches the model identifier case-insensitively by
substring against the fixed ordered pattern table (`price_table`), first
matching pattern winning (the generic `"claude"` fallback sits after all
specific claude patterns in the table); identifiers equal up to letter
case get equal results; an identifier matching no pattern (e.g.
`"totally-unknown-model"`) yields `none`, and `estimate_cost` for it also
yields `none` rather than zero. -/
theorem lookup_price_spec :
    (∀ a b : String, lowerStr a = lowerStr b → lookup_price a = lookup_price b)
    ∧ (∀ m : String, lookup_price m = table_lookup m)
    ∧ lookup_price "totally-unknown-model" = none
    ∧ (∀ i o cr cw : Nat, estimate_cost "totally-unknown-model" i o cr cw = none) := by
  have h0 : lookup_price "totally-unknown-model" = none := by
    with_unfolding_all decide
  refine ⟨?_, ?_, h0, ?_⟩
  · intro a b h
    unfold lookup_price
    rw [h]
  · intro m
    unfold lookup_price table_lookup price_table
    simp only [firstMatch, List.any_cons, List.any_nil, Bool.or_false, Bool.or_assoc]
  · intro i o cr cw
    unfold estimate_cost
    rw [h0]
    rfl

/-- Witness for `lookup_price_spec`: the spec's scenario, discharged
through the theorem at concrete inputs. -/
theorem lookup_price_spec_witness :
    lookup_price "claude-sonnet-4-5" = lookup_price "CLAUDE-SONNET-4-5"
    ∧ lookup_price "claude-sonnet-4-5" = table_lookup "claude-sonnet-4-5"
    ∧ estimate_cost "totally-unknown-model" 1 2 3 4 = none :=
  ⟨lookup_price_spec.1 "claude-sonnet-4-5" "CLAUDE-SONNET-4-5" (by decide),
   lookup_price_spec.2.1 "claude-sonnet-4-5",
   lookup_price_spec.2.2.2 1 2 3 4⟩

/-! ### Scenario scaffolding -/

def blankSession : CanonicalSession :=
  { session_id := "s", started_at := none, ended_at := none, model := none
  , message_count := 0, total_cost_usd := none
  , total_input_tokens := 0, total_output_tokens := 0 }

/-- Usage with a directly observed cost and `billed` input tokens. -/
def obsUsage (billed : Nat) (cost : ℚ) : CanonicalUsage :=
  { input_tokens := billed, output_tokens := 0, reasoning_tokens := 0
  , cache_read_tokens := 0, cache_write_tokens := 0
  , cost_observed_usd := some cost, cost_estimated_usd := none, latency_ms := none }

def mkAssistantMsg (seqn : Nat) (usage : Option CanonicalUsage)
    (tools : List CanonicalTool) : CanonicalMessage :=
  { message_id := "m" ++ toString seqn, session_id := "s", parent_id := none
  , sequence := seqn, role := Role.assistant, model := none, ts := none
  , usage := usage, tool_calls := tools, is_sidechain := false
  , finish_reason := none }

def mkUserMsg (seqn : Nat) : CanonicalMessage :=
  { message_id := "u" ++ toString seqn, session_id := "s", parent_id := none
  , sequence := seqn, role := Role.user, model := none, ts := none
  , usage := none, tool_calls := [], is_sidechain := false
  , finish_reason := none }

def mkTool (name id : String) (status : ToolStatus) (args : Option String) :
    CanonicalTool :=
  { tool_name := name, call_id := id, status := status, error_class := none
  , error_message := none, args_summary := args, output_summary := none
  , duration_ms := none }

/-- A fold step that preserves a predicate preserves it over `foldl`. -/
theorem foldl_preserve {α β : Type} (f : β → α → β) (P : β → Prop)
    (h : ∀ b a, P b → P (f b a)) : ∀ (l : List α) (b : β), P b → P (l.foldl f b) := by
  intro l
  induction l with
  | nil => intro b hb; exact hb
  | cons a t ih => intro b hb; exact ih (f b a) (h b a hb)

theorem pushEntry_keys (k : String) (v : Nat) (l : List (String × List Nat)) :
    (pushEntry k v l).map Prod.fst =
      if k ∈ l.map Prod.fst then l.map Prod.fst else l.map Prod.fst ++ [k] := by
  induction l with
  | nil => simp [pushEntry]
  | cons e t ih =>
    by_cases hk : e.1 = k
    · simp [pushEntry, hk]
    · have hne : ¬ k = e.1 := fun h => hk h.symm
      by_cases hm : k ∈ t.map Prod.fst
      · simp [pushEntry, if_neg hk, ih, hm, List.mem_cons]
      · simp [pushEntry, if_neg hk, ih, hm, List.mem_cons, hne]

theorem pushEntry_keys_nodup (k : String) (v : Nat) (l : List (String × List Nat))
    (h : (l.map Prod.fst).Nodup) : ((pushEntry k v l).map Prod.fst).Nodup := by
  rw [pushEntry_keys]
  by_cases hm : k ∈ l.map Prod.fst
  · simpa [hm] using h
  · have hd : (l.map Prod.fst).Disjoint [k] := by
      intro a ha hak
      rw [List.mem_singleton] at hak
      subst hak
      exact hm ha
    simpa [hm] using List.Nodup.append h (List.nodup_singleton k) hd

theorem editGroupStep_keys_nodup (seqn : Nat) (acc2 : List (String × List Nat))
    (tool : CanonicalTool) (h2 : (acc2.map Prod.fst).Nodup) :
    (((editGroupStep seqn acc2 tool)).map Prod.fst).Nodup := by
  unfold editGroupStep
  split
  · cases tool.args_summary with
    | none => exact h2
    | some args => exact pushEntry_keys_nodup args seqn acc2 h2
  · exact h2

theorem editGroupFold_keys_nodup (seqn : Nat) (ts : List CanonicalTool) :
    ∀ acc : List (String × List Nat), (acc.map Prod.fst).Nodup →
      (((ts.foldl (editGroupStep seqn) acc)).map Prod.fst).Nodup := by
  induction ts with
  | nil => intro acc h; exact h
  | cons tool rest ih =>
    intro acc h
    exact ih _ (editGroupStep_keys_nodup seqn acc tool h)

theorem editGroups_keys_nodup (msgs : List CanonicalMessage) :
    ((editGroups msgs).map Prod.fst).Nodup := by
  unfold editGroups
  generalize assistantMessages msgs = ams
  have main : ∀ (ams : List CanonicalMessage) (acc : List (String × List Nat)),
      (acc.map Prod.fst).Nodup →
      ((ams.foldl (fun acc amsg => amsg.tool_calls.foldl (editGroupStep amsg.sequence) acc)
          acc).map Prod.fst).Nodup := by
    intro ams
    induction ams with
    | nil => intro acc h; exact h
    | cons m t ih =>
      intro acc h
      exact ih _ (editGroupFold_keys_nodup m.sequence m.tool_calls acc h)
  exact main ams [] (by simp)

/-- The C5 scenario session: three assistant turns at sequences 2, 4, 6,
each making the same failing `edit` call on `"a.txt"`, with message costs
$0.01, $0.02, $0.03. -/
def cascadeSession : ParsedSession :=
  { session := blankSession
  , messages :=
      [ mkUserMsg 1
      , mkAssistantMsg 2 (some (obsUsage 0 0.01)) [mkTool "edit" "c1" .error (some "a.txt")]
      , mkUserMsg 3
      , mkAssistantMsg 4 (some (obsUsage 0 0.02)) [mkTool "edit" "c2" .error (some "a.txt")]
      , mkUserMsg 5
      , mkAssistantMsg 6 (some (obsUsage 0 0.03)) [mkTool "edit" "c3" .error (some "a.txt")] ] }

/-- C5. The edit-cascade detector groups failed edit/write-family calls by
`args_summary` and reports each resource key at most once (the grouping
keys are distinct), with wasted cost the sum of the repeat failures'
costs; on the scenario session (same failing `edit` on `"a.txt"` at
sequences 2, 4, 6 with costs $0.01/$0.02/$0.03) the full pipeline emits
exactly one `EditCascade` finding, citing turns 2, 4, 6, with wasted cost
$0.05. -/
theorem edit_cascade_spec :
    (∀ msgs : List CanonicalMessage, ((editGroups msgs).map Prod.fst).Nodup)
    ∧ ((detect_inefficiencies cascadeSession).filter
        fun f => f.kind == FindingKind.editCascade)
      = [{ kind := FindingKind.editCascade
         , evidence := ["turn 2", "turn 4", "turn 6"]
         , wasted_tokens := none
         , wasted_cost_usd := some 0.05
         , confidence := 0.8 }] :=
  ⟨editGroups_keys_nodup, by with_unfolding_all decide⟩

/-! ### C6: context bloat -/

/-- C6 scenario 1: 500 assistant turns whose billed-input mean is 10,000
tokens, with one outlier turn (sequence 500) at 5,000,000 tokens. -/
def bloatOutlierMsgs : List CanonicalMessage :=
  ((List.range 499).map fun i => mkAssistantMsg (i + 1) (some (obsUsage 0 1)) [])
    ++ [mkAssistantMsg 500 (some (obsUsage 5000000 1)) []]

/-- C6 scenario 2: mean billed input 200,000 with the outlier at 300,000
(ratio 1.5, under the 2.5 multiplier). -/
def bloatSmallMsgs : List CanonicalMessage :=
  [ mkAssistantMsg 1 (some (obsUsage 150000 1)) []
  , mkAssistantMsg 2 (some (obsUsage 150000 1)) []
  , mkAssistantMsg 3 (some (obsUsage 300000 1)) [] ]

theorem bloatOutlier_billed :
    billed_counts bloatOutlierMsgs
      = ((List.range 499).map fun i => (i + 1, 0, (1:ℚ))) ++ [(500, 5000000, (1:ℚ))] := by
  have hsome : ∀ l : List Nat,
      List.filterMap (fun i => some (i + 1, (0:Nat), (1:ℚ))) l
        = l.map fun i => (i + 1, 0, 1) := by
    intro l
    induction l with
    | nil => rfl
    | cons a t ih => simp [List.filterMap_cons, ih]
  simp only [billed_counts, bloatOutlierMsgs, assistantMessages,
    List.filter_append, List.filter_map, List.filterMap_append, List.filterMap_map,
    Function.comp_def, mkAssistantMsg, obsUsage, CanonicalUsage.effective_cost,
    CanonicalUsage.total_billed_input, Option.or, Option.some_bind, Option.map_some']
  simp [hsome]

theorem bloatOutlier_mean : meanBilled bloatOutlierMsgs = 10000 := by
  unfold meanBilled
  rw [bloatOutlier_billed]
  simp only [List.map_append, List.map_map, Function.comp_def, List.map_const',
    List.sum_append, List.sum_replicate, List.length_append, List.length_map,
    List.length_range, List.map_cons, List.map_nil, List.sum_cons, List.sum_nil]
  norm_num

theorem bloatOutlier_threshold : bloatThreshold bloatOutlierMsgs = 25000 := by
  unfold bloatThreshold
  rw [bloatOutlier_mean]
  norm_num
  with_unfolding_all decide

theorem meanBilled_nonneg (msgs : List CanonicalMessage) : 0 ≤ meanBilled msgs := by
  unfold meanBilled
  apply div_nonneg
  · apply List.sum_nonneg
    intro x hx
    rw [List.mem_map] at hx
    obtain ⟨e, -, rfl⟩ := hx
    positivity
  · positivity

theorem bloatThreshold_lt_iff (msgs : List CanonicalMessage) (n : Nat) :
    (bloatThreshold msgs < n) ↔ (meanBilled msgs * 2.5 < (n : ℚ)) := by
  unfold bloatThreshold
  rw [Int.toNat_lt (Int.floor_nonneg.mpr (mul_nonneg (meanBilled_nonneg msgs) (by norm_num)))]
  rw [Int.floor_lt]
  push_cast
  rfl

/-- C6. The context-bloat detector returns no finding when fewer than 3
assistant messages carry priced usage; otherwise it flags exactly those
entries whose billed input exceeds both 2.5× the mean and the 200,000
absolute floor (the `as u64` truncated threshold test coincides with the
exact rational comparison); a flagged message's wasted cost is its cost
prorated by the fraction of its billed tokens exceeding the (truncated)
mean; the 10,000-mean/5,000,000-outlier scenario yields exactly one
`ContextBloat` finding, and the 200,000-mean/300,000-outlier scenario
yields none. -/
theorem context_bloat_spec :
    (∀ msgs : List CanonicalMessage,
      (billed_counts msgs).length < 3 → detect_context_bloat msgs = [])
    ∧ (∀ msgs : List CanonicalMessage, 3 ≤ (billed_counts msgs).length →
        detect_context_bloat msgs = (billed_counts msgs).filterMap fun e =>
          if meanBilled msgs * 2.5 < (e.2.1 : ℚ) ∧ 200000 < e.2.1 then
            some (mkBloatFinding (meanBilled msgs) e)
          else none)
    ∧ (∀ (mean : ℚ) (e : Nat × Nat × ℚ), 0 < e.2.1 →
        (mkBloatFinding mean e).wasted_cost_usd
          = some (e.2.2 * (((e.2.1 - (⌊mean⌋).toNat : Nat) : ℚ) / (e.2.1 : ℚ))))
    ∧ detect_context_bloat bloatOutlierMsgs
        = [{ kind := FindingKind.contextBloat
           , evidence := ["turn 500"]
           , wasted_tokens := some 4990000
           , wasted_cost_usd := some (499/500)
           , confidence := 0.7 }]
    ∧ detect_context_bloat bloatSmallMsgs = [] := by
  refine ⟨?_, ?_, ?_, ?_, ?_⟩
  · intro msgs h
    unfold detect_context_bloat
    rw [if_pos h]
  · intro msgs h3
    unfold detect_context_bloat
    rw [if_neg (by omega)]
    refine List.filterMap_congr ?_
    intro e he
    by_cases hc1 : (200000 : Nat) < e.2.1
    · by_cases hc2 : meanBilled msgs * 2.5 < (e.2.1 : ℚ)
      · have hthr : bloatThreshold msgs < e.2.1 := (bloatThreshold_lt_iff msgs e.2.1).mpr hc2
        simp [hthr, hc1, hc2]
      · have hthr : ¬ bloatThreshold msgs < e.2.1 :=
          fun h => hc2 ((bloatThreshold_lt_iff msgs e.2.1).mp h)
        simp [hthr, hc2]
    · simp [hc1]
  · intro mean e he
    unfold mkBloatFinding
    simp [he]
  · simp only [detect_context_bloat, bloatOutlier_billed, bloatOutlier_mean,
      bloatOutlier_threshold]
    simp only [List.length_append, List.length_map, List.length_range]
    norm_num
    simp only [List.filterMap_append, List.filterMap_map, Function.comp_def]
    norm_num [mkBloatFinding, List.filterMap_cons]
    have hnone : List.filterMap (fun _ : Nat => (none : Option Finding)) (List.range 499) = [] := by
      simp
    rw [hnone, List.nil_append, show Int.toNat 10000 = 10000 from rfl]
    norm_num
    with_unfolding_all decide
  · with_unfolding_all decide

/-- Witness for `context_bloat_spec`: the theorem's conditional parts
discharged at concrete inputs. -/
theorem context_bloat_spec_witness :
    detect_context_bloat [] = []
    ∧ detect_context_bloat bloatSmallMsgs
        = ((billed_counts bloatSmallMsgs).filterMap fun e =>
            if meanBilled bloatSmallMsgs * 2.5 < (e.2.1 : ℚ) ∧ 200000 < e.2.1 then
              some (mkBloatFinding (meanBilled bloatSmallMsgs) e)
            else none)
    ∧ (mkBloatFinding 10 (1, 5, 7)).wasted_cost_usd
        = some (7 * (((5 - (⌊(10:ℚ)⌋).toNat : Nat) : ℚ) / ((5 : Nat) : ℚ))) :=
  ⟨context_bloat_spec.1 [] (by with_unfolding_all decide),
   context_bloat_spec.2.1 bloatSmallMsgs (by with_unfolding_all decide),
   context_bloat_spec.2.2.1 10 (1, 5, 7) (by norm_num)⟩

/-! ### C7: redundant re-reads -/

theorem lookupEntry_cons (k : String) (e : String × List Nat)
    (t : List (String × List Nat)) :
    lookupEntry k (e :: t) = if e.1 = k then some e.2 else lookupEntry k t := rfl

theorem lookupNat_cons (k : String) (e : String × Nat) (t : List (String × Nat)) :
    lookupNat k (e :: t) = if e.1 = k then some e.2 else lookupNat k t := rfl

theorem lookupEntry_removeEntry_self (k : String) (l : List (String × List Nat)) :
    lookupEntry k (removeEntry k l) = none := by
  induction l with
  | nil => rfl
  | cons e t ih =>
    by_cases he : e.1 = k
    · have h1 : removeEntry k (e :: t) = removeEntry k t := by
        simp [removeEntry, List.filter_cons, he]
      rw [h1, ih]
    · have h1 : removeEntry k (e :: t) = e :: removeEntry k t := by
        simp [removeEntry, List.filter_cons, he]
      rw [h1, lookupEntry_cons, if_neg he, ih]

theorem lookupEntry_removeEntry_ne {k' k : String} (h : k' ≠ k)
    (l : List (String × List Nat)) :
    lookupEntry k' (removeEntry k l) = lookupEntry k' l := by
  induction l with
  | nil => rfl
  | cons e t ih =>
    by_cases he : e.1 = k
    · have h1 : removeEntry k (e :: t) = removeEntry k t := by
        simp [removeEntry, List.filter_cons, he]
      have h2 : ¬ e.1 = k' := by rw [he]; exact fun hh => h hh.symm
      rw [h1, ih, lookupEntry_cons, if_neg h2]
    · have h1 : removeEntry k (e :: t) = e :: removeEntry k t := by
        simp [removeEntry, List.filter_cons, he]
      rw [h1, lookupEntry_cons, lookupEntry_cons, ih]

theorem lookupNat_setEntryNat_self (k : String) (v : Nat) (l : List (String × Nat)) :
    lookupNat k (setEntryNat k v l) = some v := by
  induction l with
  | nil => simp [setEntryNat, lookupNat_cons]
  | cons e t ih =>
    by_cases he : e.1 = k
    · rw [setEntryNat, if_pos he, lookupNat_cons, if_pos rfl]
    · rw [setEntryNat, if_neg he, lookupNat_cons, if_neg he, ih]

theorem lookupNat_setEntryNat_ne {k' k : String} (h : k' ≠ k) (v : Nat)
    (l : List (String × Nat)) :
    lookupNat k' (setEntryNat k v l) = lookupNat k' l := by
  have hk : ¬ k = k' := fun hh => h hh.symm
  induction l with
  | nil => simp [setEntryNat, lookupNat_cons, hk, lookupNat]
  | cons e t ih =>
    by_cases he : e.1 = k
    · have h2 : ¬ e.1 = k' := by rw [he]; exact hk
      rw [setEntryNat, if_pos he, lookupNat_cons, lookupNat_cons, if_neg hk, if_neg h2]
    · rw [setEntryNat, if_neg he, lookupNat_cons, lookupNat_cons, ih]

/-- Value-level description of the read branch's entry update. -/
def rereadPush (lw v : Nat) : Option (List Nat) → List Nat
  | some reads => if reads.all fun s => decide (lw < s) then reads ++ [v] else [v]
  | none => [v]

theorem lookupEntry_updateReread_self (k : String) (lw v : Nat)
    (l : List (String × List Nat)) :
    lookupEntry k (updateReread k lw v l)
      = some (rereadPush lw v (lookupEntry k l)) := by
  induction l with
  | nil => simp [updateReread, lookupEntry_cons, rereadPush, lookupEntry]
  | cons e t ih =>
    by_cases he : e.1 = k
    · rw [updateReread, if_pos he, lookupEntry_cons, if_pos rfl,
        lookupEntry_cons, if_pos he, rereadPush]
    · rw [updateReread, if_neg he, lookupEntry_cons, if_neg he,
        lookupEntry_cons, if_neg he, ih]

theorem lookupEntry_updateReread_ne {k' k : String} (h : k' ≠ k) (lw v : Nat)
    (l : List (String × List Nat)) :
    lookupEntry k' (updateReread k lw v l) = lookupEntry k' l := by
  have hk : ¬ k = k' := fun hh => h hh.symm
  induction l with
  | nil => simp [updateReread, lookupEntry_cons, hk, lookupEntry]
  | cons e t ih =>
    by_cases he : e.1 = k
    · have h2 : ¬ e.1 = k' := by rw [he]; exact hk
      rw [updateReread, if_pos he, lookupEntry_cons, lookupEntry_cons,
        if_neg hk, if_neg h2]
    · rw [updateReread, if_neg he, lookupEntry_cons, lookupEntry_cons, ih]

/-- The per-key view of one re-read tracking step depends only on the
per-key view of the state. -/
theorem rereadStep_local (k : String) (st₁ st₂ : RereadState)
    (ev : Nat × CanonicalTool)
    (hlw : lookupNat k st₁.last_written = lookupNat k st₂.last_written)
    (hrc : lookupEntry k st₁.read_count = lookupEntry k st₂.read_count) :
    lookupNat k (rereadStep st₁ ev).last_written
      = lookupNat k (rereadStep st₂ ev).last_written
    ∧ lookupEntry k (rereadStep st₁ ev).read_count
      = lookupEntry k (rereadStep st₂ ev).read_count := by
  unfold rereadStep
  cases hargs : ev.2.args_summary with
  | none => exact ⟨hlw, hrc⟩
  | some key =>
    dsimp only
    by_cases hw : isWriteTool ev.2 = true
    · rw [if_pos hw, if_pos hw]
      by_cases hk : key = k
      · subst hk
        constructor
        · rw [lookupNat_setEntryNat_self, lookupNat_setEntryNat_self]
        · rw [lookupEntry_removeEntry_self, lookupEntry_removeEntry_self]
      · have hk' : k ≠ key := fun h => hk h.symm
        constructor
        · rw [lookupNat_setEntryNat_ne hk', lookupNat_setEntryNat_ne hk', hlw]
        · rw [lookupEntry_removeEntry_ne hk', lookupEntry_removeEntry_ne hk', hrc]
    · rw [if_neg hw, if_neg hw]
      by_cases hr : isReadTool ev.2 = true
      · rw [if_pos hr, if_pos hr]
        refine ⟨hlw, ?_⟩
        by_cases hk : key = k
        · subst hk
          rw [lookupEntry_updateReread_self, lookupEntry_updateReread_self, hlw, hrc]
        · have hk' : k ≠ key := fun h => hk h.symm
          rw [lookupEntry_updateReread_ne hk', lookupEntry_updateReread_ne hk', hrc]
      · rw [if_neg hr, if_neg hr]
        exact ⟨hlw, hrc⟩

theorem rereadFold_local (k : String) (l : List (Nat × CanonicalTool)) :
    ∀ (st₁ st₂ : RereadState),
    lookupNat k st₁.last_written = lookupNat k st₂.last_written →
    lookupEntry k st₁.read_count = lookupEntry k st₂.read_count →
    lookupNat k (l.foldl rereadStep st₁).last_written
      = lookupNat k (l.foldl rereadStep st₂).last_written
    ∧ lookupEntry k (l.foldl rereadStep st₁).read_count
      = lookupEntry k (l.foldl rereadStep st₂).read_count := by
  induction l with
  | nil => intro st₁ st₂ h1 h2; exact ⟨h1, h2⟩
  | cons ev rest ih =>
    intro st₁ st₂ h1 h2
    obtain ⟨g1, g2⟩ := rereadStep_local k st₁ st₂ ev h1 h2
    exact ih _ _ g1 g2

theorem rereadStep_args_none (st : RereadState) (ev : Nat × CanonicalTool)
    (h : ev.2.args_summary = none) : rereadStep st ev = st := by
  unfold rereadStep
  rw [h]

theorem rereadStep_write (st : RereadState) (ev : Nat × CanonicalTool) (key : String)
    (h : ev.2.args_summary = some key) (hw : isWriteTool ev.2 = true) :
    rereadStep st ev
      = ⟨setEntryNat key ev.1 st.last_written, removeEntry key st.read_count⟩ := by
  unfold rereadStep
  rw [h]
  dsimp only
  rw [if_pos hw]

theorem rereadStep_read (st : RereadState) (ev : Nat × CanonicalTool) (key : String)
    (h : ev.2.args_summary = some key) (hw : isWriteTool ev.2 = false)
    (hr : isReadTool ev.2 = true) :
    rereadStep st ev
      = { st with read_count := updateReread key ((lookupNat key st.last_written).getD 0) ev.1 st.read_count } := by
  unfold rereadStep
  rw [h]
  dsimp only
  rw [if_neg (by simp [hw]), if_pos hr]

theorem rereadStep_neither (st : RereadState) (ev : Nat × CanonicalTool) (key : String)
    (h : ev.2.args_summary = some key) (hw : isWriteTool ev.2 = false)
    (hr : isReadTool ev.2 = false) : rereadStep st ev = st := by
  unfold rereadStep
  rw [h]
  dsimp only
  rw [if_neg (by simp [hw]), if_neg (by simp [hr])]

/-- Every tracked read sequence originates from a read event of the
processed stream (or was already tracked in the starting state). -/
theorem rereadFold_tracked_from_reads (k : String) (l : List (Nat × CanonicalTool)) :
    ∀ (st : RereadState) (seqs : List Nat) (x : Nat),
    lookupEntry k ((l.foldl rereadStep st).read_count) = some seqs → x ∈ seqs →
    (∃ ev ∈ l, ev.1 = x ∧ isReadTool ev.2 = true ∧ ev.2.args_summary = some k)
    ∨ (∃ seqs₀, lookupEntry k st.read_count = some seqs₀ ∧ x ∈ seqs₀) := by
  induction l with
  | nil => intro st seqs x h hx; exact Or.inr ⟨seqs, h, hx⟩
  | cons ev rest ih =>
    intro st seqs x h hx
    rcases ih (rereadStep st ev) seqs x h hx with hc | ⟨seqs₀, h0, hx0⟩
    · obtain ⟨e, he, p⟩ := hc
      exact Or.inl ⟨e, List.mem_cons_of_mem _ he, p⟩
    · cases hargs : ev.2.args_summary with
      | none =>
        rw [rereadStep_args_none st ev hargs] at h0
        exact Or.inr ⟨seqs₀, h0, hx0⟩
      | some key =>
        by_cases hw : isWriteTool ev.2 = true
        · rw [rereadStep_write st ev key hargs hw] at h0
          by_cases hk : key = k
          · rw [hk] at h0
            rw [lookupEntry_removeEntry_self] at h0
            exact absurd h0 (by simp)
          · rw [lookupEntry_removeEntry_ne (fun hh => hk hh.symm)] at h0
            exact Or.inr ⟨seqs₀, h0, hx0⟩
        · by_cases hr : isReadTool ev.2 = true
          · rw [rereadStep_read st ev key hargs (by simpa using hw) hr] at h0
            by_cases hk : key = k
            · rw [hk] at h0 hargs
              rw [lookupEntry_updateReread_self] at h0
              have hseqs : seqs₀ = rereadPush ((lookupNat k st.last_written).getD 0)
                  ev.1 (lookupEntry k st.read_count) := by
                exact (Option.some.injEq _ _ ▸ h0.symm : _)
              subst hseqs
              cases hold : lookupEntry k st.read_count with
              | none =>
                rw [hold] at hx0
                have : x = ev.1 := by simpa [rereadPush] using hx0
                exact Or.inl ⟨ev, List.mem_cons_self ev rest, this.symm, hr, hargs⟩
              | some reads =>
                rw [hold] at hx0
                simp only [rereadPush] at hx0
                by_cases hall : reads.all fun s =>
                    decide ((lookupNat k st.last_written).getD 0 < s)
                · rw [if_pos hall] at hx0
                  rcases List.mem_append.mp hx0 with hin | hnew
                  · exact Or.inr ⟨reads, rfl, hin⟩
                  · have : x = ev.1 := by simpa using hnew
                    exact Or.inl ⟨ev, List.mem_cons_self ev rest, this.symm, hr, hargs⟩
                · rw [if_neg hall] at hx0
                  have : x = ev.1 := by simpa using hx0
                  exact Or.inl ⟨ev, List.mem_cons_self ev rest, this.symm, hr, hargs⟩
            · rw [lookupEntry_updateReread_ne (fun hh => hk hh.symm)] at h0
              exact Or.inr ⟨seqs₀, h0, hx0⟩
          · rw [rereadStep_neither st ev key hargs (by simpa using hw)
              (by simpa using hr)] at h0
            exact Or.inr ⟨seqs₀, h0, hx0⟩

/-- The C7 scenario: a resource read at sequences 5, 6, 7 with a write at
sequence 6 between the first and second read. -/
def rwScenarioMsgs : List CanonicalMessage :=
  [ mkAssistantMsg 5 none [mkTool "read" "r1" .success (some "f.txt")]
  , mkAssistantMsg 6 none
      [ mkTool "write" "w1" .success (some "f.txt")
      , mkTool "read" "r2" .success (some "f.txt") ]
  , mkAssistantMsg 7 none [mkTool "read" "r3" .success (some "f.txt")] ]

/-- C7. A write to a resource key clears that key's tracked read list
(the step removes the entry); after a write to a key, the key's tracking
is determined by the later events alone (fold locality from the reset
state); every tracked read sequence comes from a read event of the
processed suffix — so only reads after the last write count toward the
≥3 threshold — and the scenario session (reads at 5, 6, 7, write at 6)
produces no `RedundantReread` finding. -/
theorem redundant_reread_spec :
    (∀ (st : RereadState) (s : Nat) (t : CanonicalTool) (k : String),
      isWriteTool t = true → t.args_summary = some k →
      lookupEntry k ((rereadStep st (s, t)).read_count) = none)
    ∧ (∀ (l₁ l₂ : List (Nat × CanonicalTool)) (s : Nat) (t : CanonicalTool)
        (k : String), isWriteTool t = true → t.args_summary = some k →
        lookupEntry k (((l₁ ++ (s, t) :: l₂).foldl rereadStep ⟨[], []⟩).read_count)
          = lookupEntry k ((l₂.foldl rereadStep ⟨[(k, s)], []⟩).read_count))
    ∧ (∀ (l : List (Nat × CanonicalTool)) (st : RereadState) (k : String)
        (seqs : List Nat) (x : Nat),
        lookupEntry k ((l.foldl rereadStep st).read_count) = some seqs → x ∈ seqs →
        (∃ ev ∈ l, ev.1 = x ∧ isReadTool ev.2 = true ∧ ev.2.args_summary = some k)
        ∨ (∃ seqs₀, lookupEntry k st.read_count = some seqs₀ ∧ x ∈ seqs₀))
    ∧ detect_redundant_rereads rwScenarioMsgs = [] := by
  refine ⟨?_, ?_, fun l st k => rereadFold_tracked_from_reads k l st, ?_⟩
  · intro st s t k hw hk
    rw [rereadStep_write st (s, t) k hk hw]
    exact lookupEntry_removeEntry_self k st.read_count
  · intro l₁ l₂ s t k hw hk
    rw [List.foldl_append, List.foldl_cons]
    rw [rereadStep_write _ (s, t) k hk hw]
    refine (rereadFold_local k l₂ _ _ ?_ ?_).2
    · rw [lookupNat_setEntryNat_self]
      rw [lookupNat_cons, if_pos rfl]
    · rw [lookupEntry_removeEntry_self]
      rfl
  · with_unfolding_all decide

/-- Witness for `redundant_reread_spec`: its universally quantified parts
discharged at concrete inputs. -/
theorem redundant_reread_spec_witness :
    lookupEntry "f"
        ((rereadStep ⟨[], [("f", [1, 2])]⟩
          (3, mkTool "write" "w" .success (some "f"))).read_count) = none
    ∧ lookupEntry "f"
        ((([] ++ (3, mkTool "write" "w" .success (some "f"))
            :: []).foldl rereadStep ⟨[], []⟩).read_count)
        = lookupEntry "f"
            (([] : List (Nat × CanonicalTool)).foldl rereadStep ⟨[("f", 3)], []⟩).read_count
    ∧ ((∃ ev ∈ [((5 : Nat), mkTool "read" "r" .success (some "f"))],
          ev.1 = 5 ∧ isReadTool ev.2 = true ∧ ev.2.args_summary = some "f")
        ∨ (∃ seqs₀, lookupEntry "f" (RereadState.mk [] []).read_count = some seqs₀
            ∧ 5 ∈ seqs₀)) :=
  ⟨redundant_reread_spec.1 ⟨[], [("f", [1, 2])]⟩ 3 _ "f" (by decide) rfl,
   redundant_reread_spec.2.1 [] [] 3 _ "f" (by decide) rfl,
   redundant_reread_spec.2.2.1 [(5, mkTool "read" "r" .success (some "f"))]
     ⟨[], []⟩ "f" [5] 5 (by with_unfolding_all decide) (by decide)⟩

/-! ### C8: findings sorted by wasted cost descending -/

theorem findingLE_trans : ∀ a b c : Finding,
    findingLE a b = true → findingLE b c = true → findingLE a c = true := by
  intro a b c hab hbc
  simp only [findingLE, decide_eq_true_eq] at *
  exact le_trans hbc hab

theorem findingLE_total : ∀ a b : Finding,
    (findingLE a b || findingLE b a) = true := by
  intro a b
  simp only [findingLE, Bool.or_eq_true, decide_eq_true_eq]
  exact le_total (findingCost b) (findingCost a)

/-- C8. For every `ParsedSession`, the findings list returned by
`detect_inefficiencies` is sorted by wasted cost descending, a finding
without a `wasted_cost_usd` ordered as if its wasted cost were zero
(`findingCost` is `wasted_cost_usd.getD 0`). -/
theorem detect_inefficiencies_sorted (p : ParsedSession) :
    (detect_inefficiencies p).Sorted fun a b => findingCost b ≤ findingCost a := by
  have h := List.sorted_mergeSort findingLE_trans findingLE_total
    (detect_retry_loops p.messages (cost_map p.messages)
      ++ detect_edit_cascadesOrd canonicalOrders.editOrder p.messages (cost_map p.messages)
      ++ detect_tool_fanoutOrd canonicalOrders.fanoutOrder p.messages
      ++ detect_redundant_rereadsOrd canonicalOrders.rereadOrder p.messages
      ++ detect_context_bloat p.messages
      ++ detect_error_reprompt_churn p.messages (cost_map p.messages)
      ++ detect_subagent_overhead p.messages)
  refine List.Pairwise.imp ?_ h
  intro a b hab
  simpa [findingLE, decide_eq_true_eq] using hab

/-! ### C9: compute_totals cost presence -/

theorem foldl_add_eq_sum (l : List ℚ) :
    ∀ init : ℚ, l.foldl (· + ·) init = init + l.sum := by
  induction l with
  | nil => intro init; simp
  | cons a t ih =>
    intro init
    rw [List.foldl_cons, ih, List.sum_cons]
    ring

/-- C9. `compute_totals` sets the session's `total_cost_usd` to the sum of
the per-message effective costs exactly when at least one message carries
cost data; when no message has an effective cost it leaves the field
untouched (in particular absent stays absent, never $0.00). -/
theorem compute_totals_cost_presence (p : ParsedSession) :
    ((p.messages.filterMap fun m => m.usage.bind CanonicalUsage.effective_cost) = [] →
      (compute_totals p).session.total_cost_usd = p.session.total_cost_usd)
    ∧ ((p.messages.filterMap fun m => m.usage.bind CanonicalUsage.effective_cost) ≠ [] →
      (compute_totals p).session.total_cost_usd
        = some ((p.messages.filterMap fun m =>
            m.usage.bind CanonicalUsage.effective_cost).sum)) := by
  constructor
  · intro h
    simp [compute_totals, h]
  · intro h
    simp [compute_totals, h, foldl_add_eq_sum]

/-- Witness for `compute_totals_cost_presence`: both branches discharged
at concrete sessions. -/
theorem compute_totals_cost_presence_witness :
    (compute_totals ⟨blankSession, [mkUserMsg 1]⟩).session.total_cost_usd
        = (⟨blankSession, [mkUserMsg 1]⟩ : ParsedSession).session.total_cost_usd
    ∧ (compute_totals
        ⟨blankSession, [mkAssistantMsg 1 (some (obsUsage 0 1)) []]⟩).session.total_cost_usd
        = some (([mkAssistantMsg 1 (some (obsUsage 0 1)) []].filterMap fun m =>
            m.usage.bind CanonicalUsage.effective_cost).sum) :=
  ⟨(compute_totals_cost_presence ⟨blankSession, [mkUserMsg 1]⟩).1 (by decide),
   (compute_totals_cost_presence
      ⟨blankSession, [mkAssistantMsg 1 (some (obsUsage 0 1)) []]⟩).2
     (by with_unfolding_all decide)⟩

/-! ### C10: wasted cost absent-or-positive -/

/-- "Absent or strictly positive" for a finding's wasted cost. -/
def WasteAbsentOrPos (f : Finding) : Prop :=
  f.wasted_cost_usd = none ∨ ∃ c, f.wasted_cost_usd = some c ∧ 0 < c

theorem ite_waste_absentOrPos (w : ℚ) :
    (if 0 < w then some w else none : Option ℚ) = none
      ∨ ∃ c, (if 0 < w then some w else none : Option ℚ) = some c ∧ 0 < c := by
  by_cases h : 0 < w
  · exact Or.inr ⟨w, by rw [if_pos h], h⟩
  · exact Or.inl (by rw [if_neg h])

theorem mkRetryFinding_waste (cm : Nat → Option ℚ) (chain : List (Nat × String)) :
    WasteAbsentOrPos (mkRetryFinding cm chain) :=
  ite_waste_absentOrPos _

theorem retryFromMsg_waste (cm : Nat → Option ℚ) (amsg : CanonicalMessage)
    (rest : List CanonicalMessage) :
    ∀ (ts : List CanonicalTool) (reported : List (Nat × String)) (f : Finding),
      f ∈ (retryFromMsg cm amsg rest ts reported).1 → WasteAbsentOrPos f := by
  intro ts
  induction ts with
  | nil => intro reported f hf; simp [retryFromMsg] at hf
  | cons t ts ih =>
    intro reported f hf
    unfold retryFromMsg at hf
    by_cases hrep : (amsg.sequence, t.tool_name) ∈ reported
    · rw [if_pos hrep] at hf
      exact ih reported f hf
    · rw [if_neg hrep] at hf
      by_cases hlen : 2 ≤ ((amsg.sequence, t.tool_name) ::
          (retryChain t.tool_name rest).map fun s => (s, t.tool_name)).length
      · rw [if_pos hlen] at hf
        rcases List.mem_cons.mp hf with rfl | hf'
        · exact mkRetryFinding_waste cm _
        · exact ih _ f hf'
      · rw [if_neg hlen] at hf
        exact ih reported f hf

theorem retryLoopsAux_waste (cm : Nat → Option ℚ) :
    ∀ (msgs : List CanonicalMessage) (reported : List (Nat × String)) (f : Finding),
      f ∈ retryLoopsAux cm msgs reported → WasteAbsentOrPos f := by
  intro msgs
  induction msgs with
  | nil => intro reported f hf; simp [retryLoopsAux] at hf
  | cons amsg rest ih =>
    intro reported f hf
    unfold retryLoopsAux at hf
    rcases List.mem_append.mp hf with h1 | h2
    · exact retryFromMsg_waste cm amsg rest _ reported f h1
    · exact ih _ f h2

theorem cascades_waste (ord : List (String × List Nat) → List (String × List Nat))
    (msgs : List CanonicalMessage) (cm : Nat → Option ℚ) (f : Finding)
    (hf : f ∈ detect_edit_cascadesOrd ord msgs cm) : WasteAbsentOrPos f := by
  unfold detect_edit_cascadesOrd at hf
  obtain ⟨e, -, he⟩ := List.mem_filterMap.mp hf
  by_cases h2 : 2 ≤ e.2.length
  · rw [if_pos h2, Option.some.injEq] at he
    rw [← he]
    exact ite_waste_absentOrPos _
  · rw [if_neg h2] at he
    exact absurd he (by simp)

theorem fanout_waste (ord : List (String × Nat) → List (String × Nat))
    (msgs : List CanonicalMessage) (f : Finding)
    (hf : f ∈ detect_tool_fanoutOrd ord msgs) : f.wasted_cost_usd = none := by
  unfold detect_tool_fanoutOrd at hf
  rw [List.mem_flatten] at hf
  obtain ⟨l, hl, hfl⟩ := hf
  rw [List.mem_map] at hl
  obtain ⟨amsg, -, rfl⟩ := hl
  obtain ⟨e, -, he⟩ := List.mem_filterMap.mp hfl
  by_cases h4 : 4 ≤ e.2
  · rw [if_pos h4, Option.some.injEq] at he
    rw [← he]
  · rw [if_neg h4] at he
    exact absurd he (by simp)

theorem rereads_waste (ord : List (String × List Nat) → List (String × List Nat))
    (msgs : List CanonicalMessage) (f : Finding)
    (hf : f ∈ detect_redundant_rereadsOrd ord msgs) : f.wasted_cost_usd = none := by
  unfold detect_redundant_rereadsOrd at hf
  obtain ⟨e, -, he⟩ := List.mem_filterMap.mp hf
  by_cases h3 : 3 ≤ e.2.length
  · rw [if_pos h3, Option.some.injEq] at he
    rw [← he]
    rfl
  · rw [if_neg h3] at he
    exact absurd he (by simp)

theorem bloat_kind (msgs : List CanonicalMessage) (f : Finding)
    (hf : f ∈ detect_context_bloat msgs) : f.kind = FindingKind.contextBloat := by
  unfold detect_context_bloat at hf
  by_cases h3 : (billed_counts msgs).length < 3
  · rw [if_pos h3] at hf
    exact absurd hf (by simp)
  · rw [if_neg h3] at hf
    obtain ⟨e, -, he⟩ := List.mem_filterMap.mp hf
    by_cases hc : (bloatThreshold msgs < e.2.1 && (200000 : Nat) < e.2.1) = true
    · rw [if_pos hc, Option.some.injEq] at he
      rw [← he]
      rfl
    · rw [if_neg hc] at he
      exact absurd he (by simp)

theorem churnStep_waste (cm : Nat → Option ℚ) (st : ChurnState)
    (amsg : CanonicalMessage) (hst : ∀ f ∈ st.findings, WasteAbsentOrPos f) :
    ∀ f ∈ (churnStep cm st amsg).findings, WasteAbsentOrPos f := by
  intro f hf
  unfold churnStep at hf
  by_cases hempty : ((amsg.tool_calls.filter fun t =>
      t.status == ToolStatus.error).map CanonicalTool.tool_name).isEmpty = true
  · rw [if_pos hempty] at hf
    by_cases hrep : 3 ≤ st.consecutive_errors ∧ st.error_start_seq ∉ st.reported_churn
    · rw [if_pos hrep] at hf
      dsimp only at hf
      rcases List.mem_append.mp hf with h1 | h2
      · exact hst f h1
      · rw [List.mem_singleton] at h2
        rw [h2]
        exact ite_waste_absentOrPos _
    · rw [if_neg hrep] at hf
      exact hst f hf
  · rw [if_neg hempty] at hf
    by_cases hsame : (!(st.prev_error_tools.isEmpty)
        && ((amsg.tool_calls.filter fun t => t.status == ToolStatus.error).map
            CanonicalTool.tool_name).any fun e => st.prev_error_tools.contains e) = true
    · rw [if_pos hsame] at hf
      exact hst f hf
    · rw [if_neg hsame] at hf
      exact hst f hf

theorem churn_waste (msgs : List CanonicalMessage) (cm : Nat → Option ℚ)
    (f : Finding) (hf : f ∈ detect_error_reprompt_churn msgs cm) :
    WasteAbsentOrPos f := by
  unfold detect_error_reprompt_churn at hf
  have hfold : ∀ (ams : List CanonicalMessage) (st : ChurnState),
      (∀ g ∈ st.findings, WasteAbsentOrPos g) →
      ∀ g ∈ (ams.foldl (churnStep cm) st).findings, WasteAbsentOrPos g := by
    intro ams
    induction ams with
    | nil => intro st h g hg; exact h g hg
    | cons m t ih =>
      intro st h g hg
      exact ih (churnStep cm st m) (churnStep_waste cm st m h) g hg
  set final := (assistantMessages msgs).foldl (churnStep cm) ⟨0, 0, 0, [], [], [], []⟩ with hfinal
  have hgood : ∀ g ∈ final.findings, WasteAbsentOrPos g :=
    hfold (assistantMessages msgs) ⟨0, 0, 0, [], [], [], []⟩ (by intro g hg; simp at hg)
  by_cases hflush : 3 ≤ final.consecutive_errors ∧ final.error_start_seq ∉ final.reported_churn
  · rw [if_pos hflush] at hf
    rcases List.mem_append.mp hf with h1 | h2
    · exact hgood f h1
    · rw [List.mem_singleton] at h2
      rw [h2]
      exact ite_waste_absentOrPos _
  · rw [if_neg hflush] at hf
    exact hgood f hf

theorem subagent_waste (msgs : List CanonicalMessage) (f : Finding)
    (hf : f ∈ detect_subagent_overhead msgs) : WasteAbsentOrPos f := by
  unfold detect_subagent_overhead at hf
  by_cases h0 : (msgs.filter fun m => m.is_sidechain).length = 0
  · rw [if_pos h0] at hf
    exact absurd hf (by simp)
  · rw [if_neg h0] at hf
    rw [List.mem_singleton] at hf
    rw [hf]
    by_cases hc : 0 < ((msgs.filter fun m => m.is_sidechain).filterMap fun m =>
        m.usage.bind CanonicalUsage.effective_cost).sum
    · refine Or.inr ⟨((msgs.filter fun m => m.is_sidechain).filterMap fun m =>
          m.usage.bind CanonicalUsage.effective_cost).sum * 0.25, ?_,
          mul_pos hc (by norm_num)⟩
      dsimp only
      rw [if_pos hc]
    · exact Or.inl (by dsimp only; rw [if_neg hc])

/-- The C10 counterexample session: three priced assistant turns, the
outlier (5,000,000 billed tokens) carrying an observed cost of $0.00. -/
def zeroCostBloatSession : ParsedSession :=
  { session := blankSession
  , messages :=
      [ mkAssistantMsg 1 (some (obsUsage 0 1)) []
      , mkAssistantMsg 2 (some (obsUsage 0 1)) []
      , mkAssistantMsg 3 (some (obsUsage 5000000 0)) [] ] }

/-- C10 counterexample: the context-bloat detector *does* emit a finding
with `wasted_cost_usd = some 0` — the zero computed waste is not replaced
by absence — so the claim as stated is false for the full pipeline. -/
theorem context_bloat_emits_zero_wasted_cost :
    (detect_inefficiencies zeroCostBloatSession).map Finding.wasted_cost_usd
      = [some 0] := by
  with_unfolding_all decide

/-- C10 (amended). Every finding produced by the pipeline's detectors
*other than context bloat* has a wasted cost that is either absent or
strictly positive (those detectors replace a zero computed waste with
absence); the context-bloat detector instead guards only on its token
count and can emit `some 0` when the flagged message's effective cost is
zero. -/
theorem waste_absent_or_positive_except_bloat (p : ParsedSession) (f : Finding)
    (hf : f ∈ detect_inefficiencies p) (hk : f.kind ≠ FindingKind.contextBloat) :
    f.wasted_cost_usd = none ∨ ∃ c, f.wasted_cost_usd = some c ∧ 0 < c := by
  have hmem : f ∈
      detect_retry_loops p.messages (cost_map p.messages)
        ++ detect_edit_cascadesOrd canonicalOrders.editOrder p.messages (cost_map p.messages)
        ++ detect_tool_fanoutOrd canonicalOrders.fanoutOrder p.messages
        ++ detect_redundant_rereadsOrd canonicalOrders.rereadOrder p.messages
        ++ detect_context_bloat p.messages
        ++ detect_error_reprompt_churn p.messages (cost_map p.messages)
        ++ detect_subagent_overhead p.messages :=
    (List.mergeSort_perm _ findingLE).mem_iff.mp hf
  simp only [List.mem_append] at hmem
  rcases hmem with ((((((h1 | h2) | h3) | h4) | h5) | h6) | h7)
  · exact retryLoopsAux_waste _ _ _ f h1
  · exact cascades_waste _ _ _ f h2
  · exact Or.inl (fanout_waste _ _ f h3)
  · exact Or.inl (rereads_waste _ _ f h4)
  · exact absurd (bloat_kind _ f h5) hk
  · exact churn_waste _ _ f h6
  · exact subagent_waste _ f h7

/-- Witness for `waste_absent_or_positive_except_bloat`: the edit-cascade
finding of the C5 scenario session, whose wasted cost is $0.05. -/
theorem waste_absent_or_positive_except_bloat_witness :
    ({ kind := FindingKind.editCascade
     , evidence := ["turn 2", "turn 4", "turn 6"]
     , wasted_tokens := none
     , wasted_cost_usd := some 0.05
     , confidence := 0.8 } : Finding).wasted_cost_usd = none
    ∨ ∃ c, ({ kind := FindingKind.editCascade
            , evidence := ["turn 2", "turn 4", "turn 6"]
            , wasted_tokens := none
            , wasted_cost_usd := some 0.05
            , confidence := 0.8 } : Finding).wasted_cost_usd = some c ∧ 0 < c :=
  waste_absent_or_positive_except_bloat cascadeSession _
    (by with_unfolding_all decide) (by decide)

/-! ### C1: pipeline determinism -/

/-- A session producing two `RedundantReread` findings (keys `"a"` and
`"b"`), both with no wasted cost — so the final sort cannot separate
them and their output order is whatever order the `read_count` hash map
was iterated in. -/
def twoRereadSession : ParsedSession :=
  { session := blankSession
  , messages :=
      [ mkAssistantMsg 1 none [mkTool "read" "r1" .success (some "a")]
      , mkAssistantMsg 2 none [mkTool "read" "r2" .success (some "a")]
      , mkAssistantMsg 3 none [mkTool "read" "r3" .success (some "a")]
      , mkAssistantMsg 4 none [mkTool "read" "r4" .success (some "b")]
      , mkAssistantMsg 5 none [mkTool "read" "r5" .success (some "b")]
      , mkAssistantMsg 6 none [mkTool "read" "r6" .success (some "b")] ] }

/-- The same maps iterated in reversed order — a legal `HashMap`
iteration order. -/
def reverseRereadOrders : DetectorOrders := ⟨id, List.reverse, id⟩

/-- C1 counterexample: two legal hash-map iteration orders produce
different (differently ordered) findings lists for the same
`ParsedSession`, so "byte-identical findings (same order)" fails: the
output order of equal-wasted-cost findings depends on the unspecified
`HashMap` iteration order. -/
theorem detector_output_depends_on_hash_order :
    DetectorOrders.Valid canonicalOrders
    ∧ DetectorOrders.Valid reverseRereadOrders
    ∧ detect_inefficienciesOrd canonicalOrders twoRereadSession
        ≠ detect_inefficienciesOrd reverseRereadOrders twoRereadSession := by
  refine ⟨⟨fun l => List.Perm.refl l, fun l => List.Perm.refl l, fun l => List.Perm.refl l⟩,
    ⟨fun l => List.Perm.refl l, fun l => l.reverse_perm, fun l => List.Perm.refl l⟩, ?_⟩
  with_unfolding_all decide

theorem flatten_map_perm {α : Type} (f g : α → List Finding)
    (h : ∀ m, (f m).Perm (g m)) :
    ∀ l : List α, ((l.map f).flatten).Perm ((l.map g).flatten) := by
  intro l
  induction l with
  | nil => exact List.Perm.refl _
  | cons m t ih =>
    simp only [List.map_cons, List.flatten_cons]
    exact List.Perm.append (h m) ih

/-- C1 (amended). The detector pipeline is deterministic up to the
unspecified hash-map iteration orders: for any two valid iteration
orders, the two runs produce the same findings as a multiset (a
permutation of each other); byte-identical equality — the same order —
holds only up to reordering findings with equal wasted cost. -/
theorem detect_inefficiencies_perm_stable (o₁ o₂ : DetectorOrders)
    (h₁ : o₁.Valid) (h₂ : o₂.Valid) (p : ParsedSession) :
    (detect_inefficienciesOrd o₁ p).Perm (detect_inefficienciesOrd o₂ p) := by
  obtain ⟨h₁e, h₁r, h₁f⟩ := h₁
  obtain ⟨h₂e, h₂r, h₂f⟩ := h₂
  have pB : (detect_edit_cascadesOrd o₁.editOrder p.messages (cost_map p.messages)).Perm
      (detect_edit_cascadesOrd o₂.editOrder p.messages (cost_map p.messages)) := by
    unfold detect_edit_cascadesOrd
    exact List.Perm.filterMap _ ((h₁e _).trans (h₂e _).symm)
  have pC : (detect_tool_fanoutOrd o₁.fanoutOrder p.messages).Perm
      (detect_tool_fanoutOrd o₂.fanoutOrder p.messages) := by
    unfold detect_tool_fanoutOrd
    exact flatten_map_perm _ _
      (fun m => List.Perm.filterMap _ ((h₁f _).trans (h₂f _).symm)) _
  have pD : (detect_redundant_rereadsOrd o₁.rereadOrder p.messages).Perm
      (detect_redundant_rereadsOrd o₂.rereadOrder p.messages) := by
    unfold detect_redundant_rereadsOrd
    exact List.Perm.filterMap _ ((h₁r _).trans (h₂r _).symm)
  exact ((List.mergeSort_perm _ findingLE).trans
    ((((((List.Perm.append (List.Perm.refl
        (detect_retry_loops p.messages (cost_map p.messages))) pB).append
      pC).append pD).append (List.Perm.refl (detect_context_bloat p.messages))).append
      (List.Perm.refl (detect_error_reprompt_churn p.messages (cost_map p.messages)))).append
      (List.Perm.refl (detect_subagent_overhead p.messages)))).trans
    (List.mergeSort_perm _ findingLE).symm

/-- Witness for `detect_inefficiencies_perm_stable`: the two concrete
iteration orders of the counterexample still produce the same multiset of
findings. -/
theorem detect_inefficiencies_perm_stable_witness :
    (detect_inefficienciesOrd canonicalOrders twoRereadSession).Perm
      (detect_inefficienciesOrd reverseRereadOrders twoRereadSession) :=
  detect_inefficiencies_perm_stable canonicalOrders reverseRereadOrders
    ⟨fun l => List.Perm.refl l, fun l => List.Perm.refl l, fun l => List.Perm.refl l⟩
    ⟨fun l => List.Perm.refl l, fun l => l.reverse_perm, fun l => List.Perm.refl l⟩
    twoRereadSession

/-! ### C4: sequence numbers unique and strictly increasing -/

/-- Status resolution never changes a message's sequence number. -/
theorem updLastMsg_map_sequence (id : String) (f : CanonicalTool → CanonicalTool)
    (ms : List CanonicalMessage) :
    (updLastMsg id f ms).map CanonicalMessage.sequence
      = ms.map CanonicalMessage.sequence := by
  induction ms with
  | nil => rfl
  | cons m t ih =>
    unfold updLastMsg
    by_cases hany : t.any (msgHasCall id) = true
    · rw [if_pos hany]
      simp [ih]
    · rw [if_neg hany]
      by_cases hm : msgHasCall id m = true
      · rw [if_pos hm]
        simp
      · rw [if_neg hm]

theorem applyResults_map_sequence (results : List (String × Bool × Option String)) :
    ∀ (ms : List CanonicalMessage) (p : List String),
    ((results.foldl applyResult (ms, p)).1).map CanonicalMessage.sequence
      = ms.map CanonicalMessage.sequence := by
  induction results with
  | nil => intro ms p; rfl
  | cons r rest ih =>
    intro ms p
    rw [List.foldl_cons]
    have happ : applyResult (ms, p) r
        = if r.1 ∈ p then
            (updLastMsg r.1 (resolveTool r.2.1 r.2.2) ms, p.filter fun x => !(x == r.1))
          else (ms, p) := rfl
    by_cases hmem : r.1 ∈ p
    · rw [happ, if_pos hmem, ih]
      exact updLastMsg_map_sequence r.1 _ ms
    · rw [happ, if_neg hmem]
      exact ih ms p

/-- Sequences strictly increasing and bounded by the running counter. -/
def SeqOK (msgs : List CanonicalMessage) (bound : Nat) : Prop :=
  (msgs.map CanonicalMessage.sequence).Pairwise (· < ·)
    ∧ ∀ m ∈ msgs, m.sequence ≤ bound

theorem seqOK_append (msgs : List CanonicalMessage) (bound : Nat)
    (m : CanonicalMessage) (h : SeqOK msgs bound) (hm : m.sequence = bound + 1) :
    SeqOK (msgs ++ [m]) (bound + 1) := by
  obtain ⟨hp, hb⟩ := h
  constructor
  · rw [List.map_append]
    rw [List.pairwise_append]
    refine ⟨hp, by simp, ?_⟩
    intro a ha b hb'
    simp only [List.map_cons, List.map_nil, List.mem_singleton] at hb'
    rw [List.mem_map] at ha
    obtain ⟨m', hm', rfl⟩ := ha
    rw [hb', hm]
    exact Nat.lt_succ_of_le (hb m' hm')
  · intro m' hm'
    rcases List.mem_append.mp hm' with h1 | h2
    · exact Nat.le_succ_of_le (hb m' h1)
    · rw [List.mem_singleton] at h2
      rw [h2, hm]

theorem seqOK_same_map (msgs msgs' : List CanonicalMessage) (bound : Nat)
    (h : SeqOK msgs bound)
    (heq : msgs'.map CanonicalMessage.sequence = msgs.map CanonicalMessage.sequence) :
    SeqOK msgs' bound := by
  obtain ⟨hp, hb⟩ := h
  constructor
  · rw [heq]; exact hp
  · intro m hm
    have : m.sequence ∈ msgs'.map CanonicalMessage.sequence := List.mem_map_of_mem _ hm
    rw [heq, List.mem_map] at this
    obtain ⟨m', hm', he⟩ := this
    rw [← he]
    exact hb m' hm'

theorem claudeFileStep_seqOK (sid : String) (sc : Bool) (st : ClaudeFileState)
    (r : CRecord) (h : SeqOK st.messages st.seq) :
    SeqOK (claudeFileStep sid sc st r).messages (claudeFileStep sid sc st r).seq := by
  cases r with
  | assistant mid parent model ts usageRaw tools scFlag stop =>
    exact seqOK_append st.messages st.seq _ h rfl
  | user mid parent ts results =>
    refine seqOK_append _ st.seq _ ?_ rfl
    exact seqOK_same_map st.messages _ st.seq h (applyResults_map_sequence results st.messages st.pending)
  | other => exact h

theorem claudeFold_seqOK (sid : String) (sc : Bool) (rs : List CRecord) :
    ∀ st : ClaudeFileState, SeqOK st.messages st.seq →
    SeqOK ((rs.foldl (claudeFileStep sid sc) st).messages)
      ((rs.foldl (claudeFileStep sid sc) st).seq) := by
  induction rs with
  | nil => intro st h; exact h
  | cons r rest ih =>
    intro st h
    exact ih _ (claudeFileStep_seqOK sid sc st r h)

theorem claudeRunFile_seqOK (sid : String) (sc : Bool)
    (msgs : List CanonicalMessage) (seq : Nat) (rs : List CRecord)
    (h : SeqOK msgs seq) :
    SeqOK (claudeRunFile sid sc msgs seq rs).1 (claudeRunFile sid sc msgs seq rs).2 :=
  claudeFold_seqOK sid sc rs ⟨msgs, seq, []⟩ h

theorem claudeSubs_seqOK (sid : String) (subs : List (List CRecord)) :
    ∀ acc : List CanonicalMessage × Nat, SeqOK acc.1 acc.2 →
    SeqOK (subs.foldl (fun acc rs => claudeRunFile sid true acc.1 acc.2 rs) acc).1
      (subs.foldl (fun acc rs => claudeRunFile sid true acc.1 acc.2 rs) acc).2 := by
  induction subs with
  | nil => intro acc h; exact h
  | cons rs rest ih =>
    intro acc h
    exact ih _ (claudeRunFile_seqOK sid true acc.1 acc.2 rs h)

theorem msgLE_trans : ∀ a b c : CanonicalMessage,
    decide (a.sequence ≤ b.sequence) = true → decide (b.sequence ≤ c.sequence) = true →
    decide (a.sequence ≤ c.sequence) = true := by
  intro a b c hab hbc
  simp only [decide_eq_true_eq] at *
  omega

theorem msgLE_total : ∀ a b : CanonicalMessage,
    (decide (a.sequence ≤ b.sequence) || decide (b.sequence ≤ a.sequence)) = true := by
  intro a b
  simp only [Bool.or_eq_true, decide_eq_true_eq]
  omega

/-- Sorting a list whose sequences are strictly increasing (hence
distinct) yields a strictly increasing output. -/
theorem sortBySequence_strictMono (L : List CanonicalMessage)
    (h : (L.map CanonicalMessage.sequence).Pairwise (· < ·)) :
    ((sortBySequence L).map CanonicalMessage.sequence).Pairwise (· < ·) := by
  have hsorted := List.sorted_mergeSort msgLE_trans msgLE_total L
  have hle : ((sortBySequence L).map CanonicalMessage.sequence).Pairwise (· ≤ ·) := by
    rw [List.pairwise_map]
    exact hsorted.imp (by intro a b hab; simpa using hab)
  have hperm : ((sortBySequence L).map CanonicalMessage.sequence).Perm
      (L.map CanonicalMessage.sequence) :=
    (List.mergeSort_perm L _).map CanonicalMessage.sequence
  have hnodupL : (L.map CanonicalMessage.sequence).Nodup :=
    h.imp (fun hab => Nat.ne_of_lt hab)
  have hnodup : ((sortBySequence L).map CanonicalMessage.sequence).Nodup :=
    hperm.nodup_iff.mpr hnodupL
  have := List.Pairwise.and hle hnodup
  exact this.imp fun hab => lt_of_le_of_ne hab.1 hab.2

theorem flush_seqOK (sid : String) (model : Option String) (st : CodexState)
    (h : SeqOK st.messages st.seq) :
    SeqOK (flush_assistant_turn sid model st).messages
      (flush_assistant_turn sid model st).seq :=
  seqOK_append st.messages st.seq _ h rfl

theorem codexStep_seqOK (sid : String) (model : Option String) (st : CodexState)
    (r : XRecord) (h : SeqOK st.messages st.seq) :
    SeqOK (codexStep sid model st r).messages (codexStep sid model st r).seq := by
  cases r with
  | userMessage ts =>
    unfold codexStep
    by_cases ht : st.in_turn = true
    · rw [if_pos ht]
      exact seqOK_append _ _ _ (flush_seqOK sid model st h) rfl
    · rw [if_neg ht]
      exact seqOK_append _ _ _ h rfl
  | functionCall ts cid name args => exact h
  | functionCallOutput cid output => exact h
  | agentMessage =>
    unfold codexStep
    by_cases hc : (st.in_turn || !st.current_tool_calls.isEmpty) = true
    · rw [if_pos hc]
      exact flush_seqOK sid model st h
    · rw [if_neg hc]
      exact h
  | customToolCall cid name => exact h
  | customToolCallOutput cid output => exact h
  | other => exact h

theorem codexFold_seqOK (sid : String) (model : Option String) (rs : List XRecord) :
    ∀ st : CodexState, SeqOK st.messages st.seq →
    SeqOK ((rs.foldl (codexStep sid model) st).messages)
      ((rs.foldl (codexStep sid model) st).seq) := by
  induction rs with
  | nil => intro st h; exact h
  | cons r rest ih =>
    intro st h
    exact ih _ (codexStep_seqOK sid model st r h)

theorem opencodeFold_seqOK (sid : String) (files : List (Option OMessageFile)) :
    ∀ acc : List CanonicalMessage × Nat, SeqOK acc.1 acc.2 →
    SeqOK (files.foldl
        (fun acc f =>
          match f with
          | none => acc
          | some mf => (acc.1 ++ [opencodeMessage sid (acc.2 + 1) mf], acc.2 + 1)) acc).1
      (files.foldl
        (fun acc f =>
          match f with
          | none => acc
          | some mf => (acc.1 ++ [opencodeMessage sid (acc.2 + 1) mf], acc.2 + 1)) acc).2 := by
  induction files with
  | nil => intro acc h; exact h
  | cons f rest ih =>
    intro acc h
    rw [List.foldl_cons]
    cases f with
    | none => exact ih acc h
    | some mf => exact ih _ (seqOK_append acc.1 acc.2 _ h rfl)

/-- C4. For every source accepted by an adapter, the message list produced
by `parse_session` has sequence numbers that are strictly increasing in
output order — hence unique — regardless of the ordering of records in
the source; for Claude this includes sub-agent files merged into the same
sequence space and the final sort by sequence. -/
theorem parse_sequences_strict_mono :
    (∀ (sid : String) (main : List CRecord) (subs : List (List CRecord)),
      ((claude_parse_session sid main subs).map CanonicalMessage.sequence).Pairwise (· < ·)
      ∧ ((claude_parse_session sid main subs).map CanonicalMessage.sequence).Nodup)
    ∧ (∀ (sid : String) (model : Option String) (rs : List XRecord),
      ((codex_parse_session sid model rs).map CanonicalMessage.sequence).Pairwise (· < ·)
      ∧ ((codex_parse_session sid model rs).map CanonicalMessage.sequence).Nodup)
    ∧ (∀ (sid : String) (files : List (Option OMessageFile)),
      ((opencode_parse_session sid files).map CanonicalMessage.sequence).Pairwise (· < ·)
      ∧ ((opencode_parse_session sid files).map CanonicalMessage.sequence).Nodup) := by
  have base : SeqOK [] 0 := ⟨List.Pairwise.nil, by intro m hm; simp at hm⟩
  refine ⟨?_, ?_, ?_⟩
  · intro sid main subs
    have h1 : SeqOK (claudeRunFile sid false [] 0 main).1
        (claudeRunFile sid false [] 0 main).2 :=
      claudeRunFile_seqOK sid false [] 0 main base
    have h2 := claudeSubs_seqOK sid subs _ h1
    have h3 := sortBySequence_strictMono _ h2.1
    exact ⟨h3, h3.imp fun hab => Nat.ne_of_lt hab⟩
  · intro sid model rs
    have h1 := codexFold_seqOK sid model rs codexInit base
    have h2 : ((codex_parse_session sid model rs).map CanonicalMessage.sequence).Pairwise
        (· < ·) := by
      unfold codex_parse_session
      by_cases hc : ((rs.foldl (codexStep sid model) codexInit).in_turn
          || !(rs.foldl (codexStep sid model) codexInit).current_tool_calls.isEmpty) = true
      · rw [if_pos hc]
        exact (flush_seqOK sid model _ h1).1
      · rw [if_neg hc]
        exact h1.1
    exact ⟨h2, h2.imp fun hab => Nat.ne_of_lt hab⟩
  · intro sid files
    have h1 := opencodeFold_seqOK sid files ([], 0) base
    exact ⟨h1.1, h1.1.imp fun hab => Nat.ne_of_lt hab⟩

/-! ### C3: tool status transitions -/

/-- Position access into the message/tool structure. -/
def getTool (msgs : List CanonicalMessage) (i j : Nat) : Option CanonicalTool :=
  (msgs.get? i).bind fun m => m.tool_calls.get? j

/-- Index of the first tool carrying a call id in a tool list. -/
def firstToolIdx (id : String) : List CanonicalTool → Option Nat
  | [] => none
  | t :: ts => if t.call_id = id then some 0 else (firstToolIdx id ts).map (· + 1)

/-- The position `updLastMsg` would write: the first tool with the id in
the last message containing the id. -/
def targetPos (id : String) : List CanonicalMessage → Option (Nat × Nat)
  | [] => none
  | m :: ms =>
    match targetPos id ms with
    | some (i, j) => some (i + 1, j)
    | none =>
      if msgHasCall id m then (firstToolIdx id m.tool_calls).map fun j => (0, j)
      else none

theorem firstToolIdx_isSome (id : String) (ts : List CanonicalTool) :
    (firstToolIdx id ts).isSome = ts.any fun t => t.call_id == id := by
  induction ts with
  | nil => rfl
  | cons t rest ih =>
    unfold firstToolIdx
    by_cases h : t.call_id = id
    · simp [h]
    · simp only [if_neg h, List.any_cons, beq_iff_eq, Option.isSome_map]
      simp [ih, h]

theorem targetPos_isSome (id : String) (ms : List CanonicalMessage) :
    (targetPos id ms).isSome = ms.any (msgHasCall id) := by
  induction ms with
  | nil => rfl
  | cons m rest ih =>
    unfold targetPos
    cases htp : targetPos id rest with
    | some p =>
      have : rest.any (msgHasCall id) = true := by rw [← ih, htp]; rfl
      simp [this]
    | none =>
      have hfalse : rest.any (msgHasCall id) = false := by rw [← ih, htp]; rfl
      by_cases hm : msgHasCall id m = true
      · simp [hm, hfalse, Option.isSome_map, firstToolIdx_isSome]
        simpa [msgHasCall] using hm
      · simp [List.any_cons, hfalse, hm]

theorem firstToolIdx_some (id : String) (ts : List CanonicalTool) :
    ∀ j, firstToolIdx id ts = some j →
    ∃ t, ts.get? j = some t ∧ t.call_id = id := by
  induction ts with
  | nil => intro j h; exact absurd h (by simp [firstToolIdx])
  | cons t rest ih =>
    intro j h
    unfold firstToolIdx at h
    by_cases hc : t.call_id = id
    · rw [if_pos hc, Option.some.injEq] at h
      exact ⟨t, by rw [← h]; rfl, hc⟩
    · rw [if_neg hc] at h
      cases hrest : firstToolIdx id rest with
      | none => rw [hrest] at h; exact absurd h (by simp)
      | some j' =>
        rw [hrest, Option.map_some'] at h
        obtain ⟨t', ht', hid⟩ := ih j' hrest
        refine ⟨t', ?_, hid⟩
        rw [← (Option.some.injEq _ _).mp h]
        simpa using ht'

theorem targetPos_some (id : String) (ms : List CanonicalMessage) :
    ∀ i j, targetPos id ms = some (i, j) →
    ∃ t, getTool ms i j = some t ∧ t.call_id = id := by
  induction ms with
  | nil => intro i j h; exact absurd h (by simp [targetPos])
  | cons m rest ih =>
    intro i j h
    unfold targetPos at h
    cases htp : targetPos id rest with
    | some p =>
      rw [htp] at h
      obtain ⟨i', j'⟩ := p
      rw [Option.some.injEq, Prod.mk.injEq] at h
      obtain ⟨t, ht, hid⟩ := ih i' j' htp
      refine ⟨t, ?_, hid⟩
      rw [← h.1, ← h.2]
      simpa [getTool] using ht
    | none =>
      rw [htp] at h
      by_cases hm : msgHasCall id m = true
      · rw [if_pos hm] at h
        cases hf : firstToolIdx id m.tool_calls with
        | none => rw [hf] at h; exact absurd h (by simp)
        | some j₀ =>
          rw [hf, Option.map_some', Option.some.injEq, Prod.mk.injEq] at h
          obtain ⟨t, ht, hid⟩ := firstToolIdx_some id m.tool_calls j₀ hf
          refine ⟨t, ?_, hid⟩
          rw [← h.1, ← h.2]
          simpa [getTool] using ht
      · rw [if_neg hm] at h
        exact absurd h (by simp)

theorem updFirstTool_get (id : String) (f : CanonicalTool → CanonicalTool)
    (ts : List CanonicalTool) :
    ∀ j, (updFirstTool id f ts).get? j
      = if firstToolIdx id ts = some j then (ts.get? j).map f else ts.get? j := by
  induction ts with
  | nil => intro j; simp [updFirstTool, firstToolIdx]
  | cons t rest ih =>
    intro j
    unfold updFirstTool firstToolIdx
    by_cases hc : t.call_id = id
    · rw [if_pos hc, if_pos hc]
      cases j with
      | zero => simp
      | succ j' => simp
    · rw [if_neg hc, if_neg hc]
      cases j with
      | zero =>
        have : ((firstToolIdx id rest).map (· + 1) = some 0) = False := by
          simp only [eq_iff_iff, iff_false]
          intro h
          obtain ⟨j', -, hj⟩ := Option.map_eq_some'.mp h
          omega
        rw [if_neg (by simp [this])]
        rfl
      | succ j' =>
        have hiff : ((firstToolIdx id rest).map (· + 1) = some (j' + 1))
            ↔ firstToolIdx id rest = some j' := by
          constructor
          · intro h
            obtain ⟨a, ha, he⟩ := Option.map_eq_some'.mp h
            have : a = j' := by omega
            rw [← this]; exact ha
          · intro h; rw [h]; rfl
        by_cases hf : firstToolIdx id rest = some j'
        · rw [if_pos (hiff.mpr hf)]
          simpa using (by rw [ih j', if_pos hf] :
            (updFirstTool id f rest).get? j' = (rest.get? j').map f)
        · rw [if_neg (fun hh => hf (hiff.mp hh))]
          simpa using (by rw [ih j', if_neg hf] :
            (updFirstTool id f rest).get? j' = rest.get? j')

theorem updFirstTool_callIds (id : String) (f : CanonicalTool → CanonicalTool)
    (hf : ∀ t, (f t).call_id = t.call_id) (ts : List CanonicalTool) :
    (updFirstTool id f ts).map CanonicalTool.call_id = ts.map CanonicalTool.call_id := by
  induction ts with
  | nil => rfl
  | cons t rest ih =>
    unfold updFirstTool
    by_cases hc : t.call_id = id
    · rw [if_pos hc]
      simp [hf t]
    · rw [if_neg hc]
      simp [ih]

/-- `msgHasCall` only looks at the call ids. -/
theorem msgHasCall_congr (id : String) (m m' : CanonicalMessage)
    (h : m'.tool_calls.map CanonicalTool.call_id = m.tool_calls.map CanonicalTool.call_id) :
    msgHasCall id m' = msgHasCall id m := by
  have e1 : ∀ ts : List CanonicalTool,
      (ts.any fun t => t.call_id == id)
        = (ts.map CanonicalTool.call_id).any fun c => c == id := by
    intro ts
    induction ts with
    | nil => rfl
    | cons t r ih => simp [List.any_cons, ih]
  unfold msgHasCall
  rw [e1, e1, h]

/-- `firstToolIdx` only looks at the call ids. -/
theorem firstToolIdx_congr (id : String) (ts ts' : List CanonicalTool)
    (h : ts'.map CanonicalTool.call_id = ts.map CanonicalTool.call_id) :
    firstToolIdx id ts' = firstToolIdx id ts := by
  induction ts generalizing ts' with
  | nil =>
    have h0 : ts'.map CanonicalTool.call_id = [] := by simpa using h
    have : ts' = [] := List.map_eq_nil_iff.mp h0
    rw [this]
  | cons t rest ih =>
    cases ts' with
    | nil => simp at h
    | cons t' rest' =>
      simp only [List.map_cons, List.cons.injEq] at h
      unfold firstToolIdx
      rw [h.1, ih rest' h.2]

theorem updLastMsg_callIds (id : String) (f : CanonicalTool → CanonicalTool)
    (hf : ∀ t, (f t).call_id = t.call_id) (ms : List CanonicalMessage) :
    ∀ i, ((updLastMsg id f ms).get? i).map (fun m => m.tool_calls.map CanonicalTool.call_id)
      = (ms.get? i).map fun m => m.tool_calls.map CanonicalTool.call_id := by
  induction ms with
  | nil => intro i; rfl
  | cons m rest ih =>
    intro i
    unfold updLastMsg
    by_cases hany : rest.any (msgHasCall id) = true
    · rw [if_pos hany]
      cases i with
      | zero => rfl
      | succ i' => exact ih i'
    · rw [if_neg hany]
      by_cases hm : msgHasCall id m = true
      · rw [if_pos hm]
        cases i with
        | zero =>
          simp only [List.get?_cons_zero, Option.map_some']
          rw [updFirstTool_callIds id f hf]
        | succ i' => rfl
      · rw [if_neg hm]

/-- Resolving statuses through `updLastMsg` does not move the target
position of any id (call ids are untouched). -/
theorem targetPos_updLastMsg (x id : String) (f : CanonicalTool → CanonicalTool)
    (hf : ∀ t, (f t).call_id = t.call_id) (ms : List CanonicalMessage) :
    targetPos x (updLastMsg id f ms) = targetPos x ms := by
  induction ms with
  | nil => rfl
  | cons m rest ih =>
    unfold updLastMsg
    by_cases hany : rest.any (msgHasCall id) = true
    · rw [if_pos hany]
      unfold targetPos
      rw [ih]
    · rw [if_neg hany]
      by_cases hm : msgHasCall id m = true
      · rw [if_pos hm]
        unfold targetPos
        have hcall := updFirstTool_callIds id f hf m.tool_calls
        simp only [msgHasCall_congr x m
            { m with tool_calls := updFirstTool id f m.tool_calls } hcall,
          firstToolIdx_congr x m.tool_calls (updFirstTool id f m.tool_calls) hcall]
      · rw [if_neg hm]

/-- Pointwise behaviour of `updLastMsg`: only the target position is
rewritten. -/
theorem updLastMsg_get (id : String) (f : CanonicalTool → CanonicalTool)
    (ms : List CanonicalMessage) :
    ∀ i j, getTool (updLastMsg id f ms) i j
      = if targetPos id ms = some (i, j) then (getTool ms i j).map f
        else getTool ms i j := by
  induction ms with
  | nil => intro i j; simp [updLastMsg, targetPos, getTool]
  | cons m rest ih =>
    intro i j
    unfold updLastMsg
    by_cases hany : rest.any (msgHasCall id) = true
    · rw [if_pos hany]
      cases htp : targetPos id rest with
      | none =>
        exfalso
        have hs := targetPos_isSome id rest
        rw [htp, hany] at hs
        exact absurd hs (by simp)
      | some p =>
        obtain ⟨i', j'⟩ := p
        have htop : targetPos id (m :: rest) = some (i' + 1, j') := by
          unfold targetPos
          rw [htp]
        rw [htop]
        cases i with
        | zero =>
          rw [if_neg (by simp)]
          rfl
        | succ i0 =>
          have hg1 : getTool (m :: updLastMsg id f rest) (i0 + 1) j
              = getTool (updLastMsg id f rest) i0 j := rfl
          have hg2 : getTool (m :: rest) (i0 + 1) j = getTool rest i0 j := rfl
          rw [hg1, hg2, ih i0 j, htp]
          have hiff : ((some (i' + 1, j') : Option (Nat × Nat)) = some (i0 + 1, j))
              ↔ ((some (i', j') : Option (Nat × Nat)) = some (i0, j)) := by
            simp [Prod.ext_iff]
          by_cases hc : (some (i', j') : Option (Nat × Nat)) = some (i0, j)
          · rw [if_pos hc, if_pos (hiff.mpr hc)]
          · rw [if_neg hc, if_neg fun hh => hc (hiff.mp hh)]
    · rw [if_neg hany]
      cases htp : targetPos id rest with
      | some p =>
        exfalso
        have hs := targetPos_isSome id rest
        rw [htp] at hs
        simp only [Option.isSome_some] at hs
        rw [← hs] at hany
        exact hany rfl
      | none =>
        by_cases hm : msgHasCall id m = true
        · rw [if_pos hm]
          have htop : targetPos id (m :: rest)
              = (firstToolIdx id m.tool_calls).map fun j0 => ((0 : Nat), j0) := by
            unfold targetPos
            rw [htp, if_pos hm]
          rw [htop]
          cases i with
          | zero =>
            have hg1 : getTool ({ m with
                tool_calls := updFirstTool id f m.tool_calls } :: rest) 0 j
                = (updFirstTool id f m.tool_calls).get? j := rfl
            have hg2 : getTool (m :: rest) 0 j = m.tool_calls.get? j := rfl
            rw [hg1, hg2, updFirstTool_get id f m.tool_calls j]
            have hiff : ((firstToolIdx id m.tool_calls).map (fun j0 => ((0 : Nat), j0))
                = some (0, j)) ↔ firstToolIdx id m.tool_calls = some j := by
              cases hf : firstToolIdx id m.tool_calls <;> simp
            by_cases hc : firstToolIdx id m.tool_calls = some j
            · rw [if_pos hc, if_pos (hiff.mpr hc)]
            · rw [if_neg hc, if_neg fun hh => hc (hiff.mp hh)]
          | succ i0 =>
            rw [if_neg (by cases hf : firstToolIdx id m.tool_calls <;> simp)]
            rfl
        · rw [if_neg hm]
          have htop : targetPos id (m :: rest) = none := by
            unfold targetPos
            rw [htp, if_neg hm]
          rw [htop, if_neg (by simp)]

theorem getTool_lt_length (msgs : List CanonicalMessage) (i j : Nat)
    (t : CanonicalTool) (h : getTool msgs i j = some t) : i < msgs.length := by
  unfold getTool at h
  cases hg : msgs.get? i with
  | none => rw [hg] at h; exact absurd h (by simp)
  | some m => exact (List.get?_eq_some.mp hg).1

theorem getTool_append_left (msgs sfx : List CanonicalMessage) (i j : Nat)
    (h : i < msgs.length) : getTool (msgs ++ sfx) i j = getTool msgs i j := by
  unfold getTool
  rw [List.get?_append h]

theorem getTool_concat_length (msgs : List CanonicalMessage) (m : CanonicalMessage)
    (j : Nat) : getTool (msgs ++ [m]) msgs.length j = m.tool_calls.get? j := by
  unfold getTool
  rw [List.get?_concat_length]
  rfl

/-- `targetPos` over a snoc: the appended message wins when it contains
the id. -/
theorem targetPos_append (id : String) (ms : List CanonicalMessage)
    (m : CanonicalMessage) :
    targetPos id (ms ++ [m])
      = if msgHasCall id m then
          (firstToolIdx id m.tool_calls).map fun j => (ms.length, j)
        else targetPos id ms := by
  induction ms with
  | nil =>
    by_cases hm : msgHasCall id m = true
    · simp only [List.nil_append, targetPos, if_pos hm, List.length_nil]
    · simp only [List.nil_append, targetPos, if_neg hm]
  | cons m0 rest ih =>
    by_cases hm : msgHasCall id m = true
    · rw [if_pos hm]
      have hsome : (firstToolIdx id m.tool_calls).isSome = true := by
        rw [firstToolIdx_isSome]
        simpa [msgHasCall] using hm
      obtain ⟨j₀, hj₀⟩ := Option.isSome_iff_exists.mp hsome
      have hih : targetPos id (rest ++ [m]) = some (rest.length, j₀) := by
        rw [ih, if_pos hm, hj₀]
        rfl
      show targetPos id (m0 :: (rest ++ [m])) = _
      unfold targetPos
      rw [hih, hj₀]
      simp [List.length_cons]
    · rw [if_neg hm]
      have hih : targetPos id (rest ++ [m]) = targetPos id rest := by
        rw [ih, if_neg hm]
      show targetPos id (m0 :: (rest ++ [m])) = targetPos id (m0 :: rest)
      unfold targetPos
      rw [hih]

/-- The pending-table invariant: while an id is pending, the position a
result for it would resolve holds a still-`unknown` tool. -/
def PendOK (msgs : List CanonicalMessage) (pending : List String) : Prop :=
  ∀ X ∈ pending, ∀ i j, targetPos X msgs = some (i, j) →
    ∃ t, getTool msgs i j = some t ∧ t.status = ToolStatus.unknown

theorem newToolsOf_callIds (tools : List (String × String × Option String)) :
    (newToolsOf tools).map CanonicalTool.call_id = tools.map Prod.fst := by
  unfold newToolsOf
  rw [List.map_map]
  rfl

theorem newToolsOf_unknown (tools : List (String × String × Option String)) :
    ∀ t ∈ newToolsOf tools, t.status = ToolStatus.unknown := by
  intro t ht
  rw [newToolsOf, List.mem_map] at ht
  obtain ⟨tr, -, rfl⟩ := ht
  rfl

theorem pendingInsert_mem (tools : List (String × String × Option String)) :
    ∀ (pending : List String) (X : String),
    X ∈ tools.foldl (fun p tr => if tr.1 ∈ p then p else p ++ [tr.1]) pending →
    X ∈ pending ∨ X ∈ tools.map Prod.fst := by
  induction tools with
  | nil => intro pending X h; exact Or.inl h
  | cons tr rest ih =>
    intro pending X h
    rw [List.foldl_cons] at h
    rcases ih _ X h with h1 | h2
    · by_cases hmem : tr.1 ∈ pending
      · rw [if_pos hmem] at h1
        exact Or.inl h1
      · rw [if_neg hmem] at h1
        rcases List.mem_append.mp h1 with ha | hb
        · exact Or.inl ha
        · rw [List.mem_singleton] at hb
          exact Or.inr (by rw [hb]; simp)
    · exact Or.inr (by simp [h2])

theorem msgHasCall_iff_mem (X : String) (m : CanonicalMessage) :
    msgHasCall X m = true ↔ X ∈ m.tool_calls.map CanonicalTool.call_id := by
  unfold msgHasCall
  rw [List.any_eq_true]
  constructor
  · intro ⟨t, ht, he⟩
    rw [beq_iff_eq] at he
    rw [← he]
    exact List.mem_map_of_mem _ ht
  · intro h
    rw [List.mem_map] at h
    obtain ⟨t, ht, he⟩ := h
    exact ⟨t, ht, by rw [he]; exact beq_self_eq_true X⟩

theorem resolveTool_call_id (e : Bool) (et : Option String) (t : CanonicalTool) :
    (resolveTool e et t).call_id = t.call_id := rfl

/-- One result block preserves the pending invariant and freezes every
already-resolved tool. -/
theorem applyResult_pendOK (ms : List CanonicalMessage) (p : List String)
    (r : String × Bool × Option String) (h : PendOK ms p) :
    PendOK (applyResult (ms, p) r).1 (applyResult (ms, p) r).2
    ∧ (∀ i j t, getTool ms i j = some t → t.status ≠ ToolStatus.unknown →
        getTool (applyResult (ms, p) r).1 i j = some t) := by
  have happ : applyResult (ms, p) r
      = if r.1 ∈ p then
          (updLastMsg r.1 (resolveTool r.2.1 r.2.2) ms, p.filter fun x => !(x == r.1))
        else (ms, p) := rfl
  by_cases hmem : r.1 ∈ p
  · rw [happ, if_pos hmem]
    constructor
    · intro X hX i j htp
      have hXp : X ∈ p ∧ X ≠ r.1 := by
        rw [List.mem_filter] at hX
        refine ⟨hX.1, ?_⟩
        have := hX.2
        simpa using this
      rw [targetPos_updLastMsg X r.1 _ (resolveTool_call_id r.2.1 r.2.2)] at htp
      obtain ⟨t, ht, hu⟩ := h X hXp.1 i j htp
      refine ⟨t, ?_, hu⟩
      rw [updLastMsg_get r.1 _ ms i j]
      by_cases hc : targetPos r.1 ms = some (i, j)
      · exfalso
        obtain ⟨t', ht', hid'⟩ := targetPos_some r.1 ms i j hc
        obtain ⟨t'', ht'', hid''⟩ := targetPos_some X ms i j htp
        rw [ht'] at ht''
        have heq : t' = t'' := Option.some.inj ht''
        exact hXp.2 (by rw [← hid'', ← heq, hid'])
      · rw [if_neg hc]
        exact ht
    · intro i j t ht hs
      rw [updLastMsg_get r.1 _ ms i j]
      by_cases hc : targetPos r.1 ms = some (i, j)
      · exfalso
        obtain ⟨t', ht', hu'⟩ := h r.1 hmem i j hc
        rw [ht] at ht'
        have heq : t = t' := Option.some.inj ht'
        rw [← heq] at hu'
        exact hs hu'
      · rw [if_neg hc]
        exact ht
  · rw [happ, if_neg hmem]
    exact ⟨h, fun i j t ht _ => ht⟩

theorem applyResults_fold_pendOK (results : List (String × Bool × Option String)) :
    ∀ (ms : List CanonicalMessage) (p : List String), PendOK ms p →
    PendOK (results.foldl applyResult (ms, p)).1 (results.foldl applyResult (ms, p)).2
    ∧ (∀ i j t, getTool ms i j = some t → t.status ≠ ToolStatus.unknown →
        getTool (results.foldl applyResult (ms, p)).1 i j = some t) := by
  induction results with
  | nil => intro ms p h; exact ⟨h, fun i j t ht _ => ht⟩
  | cons r rest ih =>
    intro ms p h
    rw [List.foldl_cons]
    obtain ⟨h1, h2⟩ := applyResult_pendOK ms p r h
    have hpair : applyResult (ms, p) r
        = ((applyResult (ms, p) r).1, (applyResult (ms, p) r).2) := rfl
    rw [hpair]
    obtain ⟨g1, g2⟩ := ih (applyResult (ms, p) r).1 (applyResult (ms, p) r).2 h1
    exact ⟨g1, fun i j t ht hs => g2 i j t (h2 i j t ht hs) hs⟩

/-- Appending a message that does not contain a pending id (or whose
tools are all fresh `unknown`s) preserves the invariant. -/
theorem pendOK_append_user (msgs : List CanonicalMessage) (p : List String)
    (m : CanonicalMessage) (hm : m.tool_calls = []) (h : PendOK msgs p) :
    PendOK (msgs ++ [m]) p := by
  intro X hX i j htp
  rw [targetPos_append] at htp
  have hno : msgHasCall X m = false := by
    unfold msgHasCall
    rw [hm]
    rfl
  rw [hno] at htp
  simp only [Bool.false_eq_true, if_false] at htp
  obtain ⟨t, ht, hu⟩ := h X hX i j htp
  refine ⟨t, ?_, hu⟩
  rw [getTool_append_left _ _ _ _ (getTool_lt_length msgs i j t ht)]
  exact ht

theorem claudeFileStep_pendOK (sid : String) (sc : Bool) (st : ClaudeFileState)
    (r : CRecord) (h : PendOK st.messages st.pending) :
    PendOK (claudeFileStep sid sc st r).messages
      (claudeFileStep sid sc st r).pending := by
  cases r with
  | assistant mid parent model ts usageRaw tools scFlag stop =>
    intro X hX i j htp
    have hcall : (claudeFileStep sid sc st
        (CRecord.assistant mid parent model ts usageRaw tools scFlag stop)).messages
        = st.messages ++ [claudeAssistantMessage sid sc (st.seq + 1) mid parent
            model ts usageRaw tools scFlag stop] := rfl
    have htools : (claudeAssistantMessage sid sc (st.seq + 1) mid parent
        model ts usageRaw tools scFlag stop).tool_calls = newToolsOf tools := rfl
    rw [hcall] at htp ⊢
    by_cases hXin : X ∈ tools.map Prod.fst
    · have hhas : msgHasCall X (claudeAssistantMessage sid sc (st.seq + 1) mid parent
          model ts usageRaw tools scFlag stop) = true := by
        rw [msgHasCall_iff_mem, htools, newToolsOf_callIds]
        exact hXin
      rw [targetPos_append, if_pos hhas] at htp
      obtain ⟨j₀, hj₀, hpair⟩ := Option.map_eq_some'.mp htp
      rw [htools] at hj₀
      rw [Prod.mk.injEq] at hpair
      obtain ⟨t, ht, hid⟩ := firstToolIdx_some X _ j₀ hj₀
      refine ⟨t, ?_, ?_⟩
      · rw [← hpair.1, ← hpair.2]
        rw [getTool_concat_length, htools]
        exact ht
      · exact newToolsOf_unknown tools t (List.get?_mem ht)
    · have hXpend : X ∈ st.pending := by
        rcases pendingInsert_mem tools st.pending X hX with h1 | h2
        · exact h1
        · exact absurd h2 hXin
      have hhas : msgHasCall X (claudeAssistantMessage sid sc (st.seq + 1) mid parent
          model ts usageRaw tools scFlag stop) = false := by
        cases hb : msgHasCall X (claudeAssistantMessage sid sc (st.seq + 1) mid parent
            model ts usageRaw tools scFlag stop) with
        | false => rfl
        | true =>
          exfalso
          have hmem := (msgHasCall_iff_mem X _).mp hb
          rw [htools, newToolsOf_callIds] at hmem
          exact hXin hmem
      rw [targetPos_append, hhas] at htp
      simp only [Bool.false_eq_true, if_false] at htp
      obtain ⟨t, ht, hu⟩ := h X hXpend i j htp
      refine ⟨t, ?_, hu⟩
      rw [getTool_append_left _ _ _ _ (getTool_lt_length st.messages i j t ht)]
      exact ht
  | user mid parent ts results =>
    obtain ⟨h1, -⟩ := applyResults_fold_pendOK results st.messages st.pending h
    exact pendOK_append_user _ _ _ rfl h1
  | other => exact h

theorem claudeFileStep_freeze (sid : String) (sc : Bool) (st : ClaudeFileState)
    (r : CRecord) (h : PendOK st.messages st.pending) :
    ∀ i j t, getTool st.messages i j = some t → t.status ≠ ToolStatus.unknown →
    getTool (claudeFileStep sid sc st r).messages i j = some t := by
  intro i j t ht hs
  cases r with
  | assistant mid parent model ts usageRaw tools scFlag stop =>
    exact (getTool_append_left _ _ _ _ (getTool_lt_length st.messages i j t ht)).trans ht
  | user mid parent ts results =>
    obtain ⟨-, h2⟩ := applyResults_fold_pendOK results st.messages st.pending h
    have hmid := h2 i j t ht hs
    exact (getTool_append_left _ _ _ _
      (getTool_lt_length _ i j t hmid)).trans hmid
  | other => exact ht

theorem claudeFold_pendOK_freeze (sid : String) (sc : Bool) (rs : List CRecord) :
    ∀ st : ClaudeFileState, PendOK st.messages st.pending →
    PendOK ((rs.foldl (claudeFileStep sid sc) st).messages)
      ((rs.foldl (claudeFileStep sid sc) st).pending)
    ∧ (∀ i j t, getTool st.messages i j = some t → t.status ≠ ToolStatus.unknown →
        getTool ((rs.foldl (claudeFileStep sid sc) st).messages) i j = some t) := by
  induction rs with
  | nil => intro st h; exact ⟨h, fun i j t ht _ => ht⟩
  | cons r rest ih =>
    intro st h
    rw [List.foldl_cons]
    obtain ⟨g1, g2⟩ := ih (claudeFileStep sid sc st r) (claudeFileStep_pendOK sid sc st r h)
    exact ⟨g1, fun i j t ht hs =>
      g2 i j t (claudeFileStep_freeze sid sc st r h i j t ht hs) hs⟩

/-- The `tool_result` ids a Claude record carries. -/
def claudeResultIds : CRecord → List String
  | .user _ _ _ results => results.map Prod.fst
  | _ => []

theorem updFirstTool_mem (id : String) (g : CanonicalTool → CanonicalTool) :
    ∀ (ts : List CanonicalTool) (t' : CanonicalTool), t' ∈ updFirstTool id g ts →
    t' ∈ ts ∨ ∃ t₀, t₀ ∈ ts ∧ t' = g t₀ ∧ t₀.call_id = id := by
  intro ts
  induction ts with
  | nil => intro t' h; exact absurd h (by simp [updFirstTool])
  | cons t rest ih =>
    intro t' h
    unfold updFirstTool at h
    by_cases hc : t.call_id = id
    · rw [if_pos hc] at h
      rcases List.mem_cons.mp h with h1 | h2
      · exact Or.inr ⟨t, List.mem_cons_self t rest, h1, hc⟩
      · exact Or.inl (List.mem_cons_of_mem t h2)
    · rw [if_neg hc] at h
      rcases List.mem_cons.mp h with h1 | h2
      · exact Or.inl (h1 ▸ List.mem_cons_self t rest)
      · rcases ih t' h2 with h3 | ⟨t₀, ht₀, he, hid⟩
        · exact Or.inl (List.mem_cons_of_mem t h3)
        · exact Or.inr ⟨t₀, List.mem_cons_of_mem t ht₀, he, hid⟩

theorem updLastMsg_mem (id : String) (g : CanonicalTool → CanonicalTool) :
    ∀ (ms : List CanonicalMessage) (m' : CanonicalMessage), m' ∈ updLastMsg id g ms →
    m' ∈ ms ∨ ∃ m₀, m₀ ∈ ms ∧ m'.tool_calls = updFirstTool id g m₀.tool_calls := by
  intro ms
  induction ms with
  | nil => intro m' h; exact absurd h (by simp [updLastMsg])
  | cons m rest ih =>
    intro m' h
    unfold updLastMsg at h
    by_cases hany : rest.any (msgHasCall id) = true
    · rw [if_pos hany] at h
      rcases List.mem_cons.mp h with h1 | h2
      · exact Or.inl (h1 ▸ List.mem_cons_self m rest)
      · rcases ih m' h2 with h3 | ⟨m₀, hm₀, he⟩
        · exact Or.inl (List.mem_cons_of_mem m h3)
        · exact Or.inr ⟨m₀, List.mem_cons_of_mem m hm₀, he⟩
    · rw [if_neg hany] at h
      by_cases hm : msgHasCall id m = true
      · rw [if_pos hm] at h
        rcases List.mem_cons.mp h with h1 | h2
        · exact Or.inr ⟨m, List.mem_cons_self m rest, by rw [h1]⟩
        · exact Or.inl (List.mem_cons_of_mem m h2)
      · rw [if_neg hm] at h
        exact Or.inl h

/-- No tool carrying id `X` has left `unknown`. -/
def UnknownX (X : String) (msgs : List CanonicalMessage) : Prop :=
  ∀ m ∈ msgs, ∀ t ∈ m.tool_calls, t.call_id = X → t.status = ToolStatus.unknown

theorem unknownX_updLastMsg (X id : String) (e : Bool) (et : Option String)
    (ms : List CanonicalMessage) (h : UnknownX X ms) (hne : id ≠ X) :
    UnknownX X (updLastMsg id (resolveTool e et) ms) := by
  intro m' hm' t ht hid
  rcases updLastMsg_mem id (resolveTool e et) ms m' hm' with h1 | ⟨m₀, hm₀, he⟩
  · exact h m' h1 t ht hid
  · rw [he] at ht
    rcases updFirstTool_mem id _ m₀.tool_calls t ht with h2 | ⟨t₀, ht₀, hte, hid₀⟩
    · exact h m₀ hm₀ t h2 hid
    · exfalso
      rw [hte, resolveTool_call_id] at hid
      exact hne (by rw [← hid₀, hid])

theorem unknownX_applyResults (X : String)
    (results : List (String × Bool × Option String))
    (hni : X ∉ results.map Prod.fst) :
    ∀ (ms : List CanonicalMessage) (p : List String), UnknownX X ms →
    UnknownX X ((results.foldl applyResult (ms, p)).1) := by
  induction results with
  | nil => intro ms p h; exact h
  | cons r rest ih =>
    intro ms p h
    rw [List.foldl_cons]
    have hni' : X ∉ rest.map Prod.fst := fun hh => hni (by simp [hh])
    have hner : r.1 ≠ X := by
      intro hh
      exact hni (by simp [hh])
    have happ : applyResult (ms, p) r
        = if r.1 ∈ p then
            (updLastMsg r.1 (resolveTool r.2.1 r.2.2) ms, p.filter fun x => !(x == r.1))
          else (ms, p) := rfl
    by_cases hmem : r.1 ∈ p
    · rw [happ, if_pos hmem]
      exact ih hni' _ _ (unknownX_updLastMsg X r.1 r.2.1 r.2.2 ms h hner)
    · rw [happ, if_neg hmem]
      exact ih hni' ms p h

theorem claudeFileStep_unknownX (sid : String) (sc : Bool) (st : ClaudeFileState)
    (r : CRecord) (X : String) (hres : X ∉ claudeResultIds r)
    (h : UnknownX X st.messages) :
    UnknownX X (claudeFileStep sid sc st r).messages := by
  cases r with
  | assistant mid parent model ts usageRaw tools scFlag stop =>
    intro m' hm' t ht hid
    rcases List.mem_append.mp hm' with h1 | h2
    · exact h m' h1 t ht hid
    · rw [List.mem_singleton] at h2
      rw [h2] at ht
      exact newToolsOf_unknown tools t ht
  | user mid parent ts results =>
    intro m' hm' t ht hid
    rcases List.mem_append.mp hm' with h1 | h2
    · exact unknownX_applyResults X results hres st.messages st.pending h m' h1 t ht hid
    · rw [List.mem_singleton] at h2
      rw [h2] at ht
      exact absurd ht (by simp)
  | other => exact h

theorem claudeFold_unknownX (sid : String) (sc : Bool) (rs : List CRecord)
    (X : String) (hres : ∀ r ∈ rs, X ∉ claudeResultIds r) :
    ∀ st : ClaudeFileState, UnknownX X st.messages →
    UnknownX X ((rs.foldl (claudeFileStep sid sc) st).messages) := by
  induction rs with
  | nil => intro st h; exact h
  | cons r rest ih =>
    intro st h
    rw [List.foldl_cons]
    exact ih (fun r' hr' => hres r' (List.mem_cons_of_mem r hr')) _
      (claudeFileStep_unknownX sid sc st r X (hres r (List.mem_cons_self r rest)) h)

/-- The result ids a Codex record carries. -/
def codexOutputIds : XRecord → List String
  | .functionCallOutput cid _ => [cid]
  | .customToolCallOutput cid _ => [cid]
  | _ => []

theorem codexStep_messages_append (sid : String) (model : Option String)
    (st : CodexState) (r : XRecord) :
    ∃ sfx, (codexStep sid model st r).messages = st.messages ++ sfx := by
  obtain ⟨msgs, sq, ctc, pc, cts, itn⟩ := st
  cases r with
  | userMessage ts =>
    cases itn with
    | false => exact ⟨_, rfl⟩
    | true => exact ⟨_, List.append_assoc msgs _ _⟩
  | functionCall ts cid name args => exact ⟨[], (List.append_nil msgs).symm⟩
  | functionCallOutput cid output => exact ⟨[], (List.append_nil msgs).symm⟩
  | agentMessage =>
    cases itn with
    | true => exact ⟨_, rfl⟩
    | false =>
      cases ctc with
      | nil => exact ⟨[], (List.append_nil msgs).symm⟩
      | cons t rest => exact ⟨_, rfl⟩
  | customToolCall cid name => exact ⟨[], (List.append_nil msgs).symm⟩
  | customToolCallOutput cid output => exact ⟨[], (List.append_nil msgs).symm⟩
  | other => exact ⟨[], (List.append_nil msgs).symm⟩

theorem codexFold_messages_append (sid : String) (model : Option String)
    (rs : List XRecord) :
    ∀ st : CodexState, ∃ sfx,
    ((rs.foldl (codexStep sid model) st).messages) = st.messages ++ sfx := by
  induction rs with
  | nil => intro st; exact ⟨[], by simp⟩
  | cons r rest ih =>
    intro st
    rw [List.foldl_cons]
    obtain ⟨s1, h1⟩ := codexStep_messages_append sid model st r
    obtain ⟨s2, h2⟩ := ih (codexStep sid model st r)
    exact ⟨s1 ++ s2, by rw [h2, h1, List.append_assoc]⟩

theorem resolveCodexOutput_call_id (output : String) (t : CanonicalTool) :
    (resolveCodexOutput output t).call_id = t.call_id := rfl

theorem resolveCodexCustomOutput_call_id (output : String) (t : CanonicalTool) :
    (resolveCodexCustomOutput output t).call_id = t.call_id := rfl

/-- No tool carrying id `X` — flushed or in the open turn — has left
`unknown`. -/
def UnknownXCodex (X : String) (st : CodexState) : Prop :=
  UnknownX X st.messages
    ∧ ∀ t ∈ st.current_tool_calls, t.call_id = X → t.status = ToolStatus.unknown

theorem flush_unknownX (sid : String) (model : Option String) (st : CodexState)
    (X : String) (h : UnknownXCodex X st) :
    UnknownXCodex X (flush_assistant_turn sid model st) := by
  refine ⟨?_, by intro t ht; exact absurd ht (by simp [flush_assistant_turn])⟩
  intro m' hm' t ht hid
  rcases List.mem_append.mp hm' with h1 | h2
  · exact h.1 m' h1 t ht hid
  · rw [List.mem_singleton] at h2
    rw [h2] at ht
    exact h.2 t ht hid

theorem codexStep_unknownX (sid : String) (model : Option String) (st : CodexState)
    (r : XRecord) (X : String) (hres : X ∉ codexOutputIds r)
    (h : UnknownXCodex X st) : UnknownXCodex X (codexStep sid model st r) := by
  cases r with
  | userMessage ts =>
    unfold codexStep
    by_cases ht : st.in_turn = true
    · rw [if_pos ht]
      have h1 := flush_unknownX sid model st X h
      refine ⟨?_, h1.2⟩
      intro m' hm' t htl hid
      rcases List.mem_append.mp hm' with ha | hb
      · exact h1.1 m' ha t htl hid
      · rw [List.mem_singleton] at hb
        rw [hb] at htl
        exact absurd htl (by simp)
    · rw [if_neg ht]
      refine ⟨?_, h.2⟩
      intro m' hm' t htl hid
      rcases List.mem_append.mp hm' with ha | hb
      · exact h.1 m' ha t htl hid
      · rw [List.mem_singleton] at hb
        rw [hb] at htl
        exact absurd htl (by simp)
  | functionCall ts cid name args =>
    refine ⟨h.1, ?_⟩
    intro t ht hid
    rcases List.mem_append.mp ht with ha | hb
    · exact h.2 t ha hid
    · rw [List.mem_singleton] at hb
      rw [hb]
  | functionCallOutput cid output =>
    have hne : cid ≠ X := by
      intro hh
      exact hres (by simp [codexOutputIds, hh])
    refine ⟨h.1, ?_⟩
    intro t ht hid
    rcases updFirstTool_mem cid _ st.current_tool_calls t ht with ha | ⟨t₀, ht₀, hte, hid₀⟩
    · exact h.2 t ha hid
    · exfalso
      rw [hte, resolveCodexOutput_call_id] at hid
      exact hne (by rw [← hid₀, hid])
  | agentMessage =>
    unfold codexStep
    by_cases hc : (st.in_turn || !st.current_tool_calls.isEmpty) = true
    · rw [if_pos hc]
      have h1 := flush_unknownX sid model st X h
      exact ⟨h1.1, h1.2⟩
    · rw [if_neg hc]
      exact h
  | customToolCall cid name =>
    refine ⟨h.1, ?_⟩
    intro t ht hid
    rcases List.mem_append.mp ht with ha | hb
    · exact h.2 t ha hid
    · rw [List.mem_singleton] at hb
      rw [hb]
  | customToolCallOutput cid output =>
    have hne : cid ≠ X := by
      intro hh
      exact hres (by simp [codexOutputIds, hh])
    refine ⟨h.1, ?_⟩
    intro t ht hid
    rcases updFirstTool_mem cid _ st.current_tool_calls t ht with ha | ⟨t₀, ht₀, hte, hid₀⟩
    · exact h.2 t ha hid
    · exfalso
      rw [hte, resolveCodexCustomOutput_call_id] at hid
      exact hne (by rw [← hid₀, hid])
  | other => exact h

theorem codexFold_unknownX (sid : String) (model : Option String)
    (rs : List XRecord) (X : String) (hres : ∀ r ∈ rs, X ∉ codexOutputIds r) :
    ∀ st : CodexState, UnknownXCodex X st →
    UnknownXCodex X (rs.foldl (codexStep sid model) st) := by
  induction rs with
  | nil => intro st h; exact h
  | cons r rest ih =>
    intro st h
    rw [List.foldl_cons]
    exact ih (fun r' hr' => hres r' (List.mem_cons_of_mem r hr')) _
      (codexStep_unknownX sid model st r X (hres r (List.mem_cons_self r rest)) h)

theorem claudeSubs_unknownX (sid : String) (X : String) (subs : List (List CRecord))
    (hres : ∀ f ∈ subs, ∀ r ∈ f, X ∉ claudeResultIds r) :
    ∀ acc : List CanonicalMessage × Nat, UnknownX X acc.1 →
    UnknownX X (subs.foldl (fun acc rs => claudeRunFile sid true acc.1 acc.2 rs) acc).1 := by
  induction subs with
  | nil => intro acc h; exact h
  | cons f rest ih =>
    intro acc h
    rw [List.foldl_cons]
    refine ih (fun f' hf' => hres f' (List.mem_cons_of_mem f hf')) _ ?_
    exact claudeFold_unknownX sid true f X (hres f (List.mem_cons_self f rest))
      ⟨acc.1, acc.2, []⟩ h

/-- C3: status transitions of parsed tool calls. Claude adapter: a tool
call whose status has left `unknown` is frozen by every later record of
the file (the pending-id table grants at most one transition), and a call
id for which no `tool_result` block appears in any record stays `unknown`
in the final parse. Codex adapter: the flushed message list is
append-only, so a flushed call's status never changes, and a call id for
which no output record appears stays `unknown` in the final parse. -/
theorem tool_status_transition_spec :
    (∀ (sid : String) (sc : Bool) (rs rs' : List CRecord) (i j : Nat) (t : CanonicalTool),
      getTool ((rs.foldl (claudeFileStep sid sc) ⟨[], 0, []⟩).messages) i j = some t →
      t.status ≠ ToolStatus.unknown →
      getTool (((rs ++ rs').foldl (claudeFileStep sid sc) ⟨[], 0, []⟩).messages) i j = some t)
    ∧ (∀ (sid : String) (main : List CRecord) (subs : List (List CRecord)) (X : String),
      (∀ r ∈ main, X ∉ claudeResultIds r) →
      (∀ f ∈ subs, ∀ r ∈ f, X ∉ claudeResultIds r) →
      ∀ m ∈ claude_parse_session sid main subs, ∀ t ∈ m.tool_calls,
        t.call_id = X → t.status = ToolStatus.unknown)
    ∧ (∀ (sid : String) (model : Option String) (rs rs' : List XRecord) (i j : Nat)
        (t : CanonicalTool),
      getTool ((rs.foldl (codexStep sid model) codexInit).messages) i j = some t →
      getTool (((rs ++ rs').foldl (codexStep sid model) codexInit).messages) i j = some t)
    ∧ (∀ (sid : String) (model : Option String) (rs : List XRecord) (X : String),
      (∀ r ∈ rs, X ∉ codexOutputIds r) →
      ∀ m ∈ codex_parse_session sid model rs, ∀ t ∈ m.tool_calls,
        t.call_id = X → t.status = ToolStatus.unknown) := by
  refine ⟨?_, ?_, ?_, ?_⟩
  · intro sid sc rs rs' i j t ht hs
    rw [List.foldl_append]
    have hinit : PendOK ([] : List CanonicalMessage) ([] : List String) := by
      intro X hX
      exact absurd hX (List.not_mem_nil X)
    have hp := (claudeFold_pendOK_freeze sid sc rs ⟨[], 0, []⟩ hinit).1
    exact (claudeFold_pendOK_freeze sid sc rs' _ hp).2 i j t ht hs
  · intro sid main subs X hmain hsubs m hm t ht hid
    have hm' : m ∈ (subs.foldl
        (fun acc rs => claudeRunFile sid true acc.1 acc.2 rs)
        (claudeRunFile sid false [] 0 main)).1 := by
      have hperm := List.mergeSort_perm ((subs.foldl
        (fun acc rs => claudeRunFile sid true acc.1 acc.2 rs)
        (claudeRunFile sid false [] 0 main)).1)
        (fun a b => decide (a.sequence ≤ b.sequence))
      exact hperm.mem_iff.mp hm
    have h0 : UnknownX X ([] : List CanonicalMessage) := by
      intro m' hm0
      exact absurd hm0 (List.not_mem_nil m')
    have h1 : UnknownX X (claudeRunFile sid false [] 0 main).1 :=
      claudeFold_unknownX sid false main X hmain ⟨[], 0, []⟩ h0
    exact claudeSubs_unknownX sid X subs hsubs _ h1 m hm' t ht hid
  · intro sid model rs rs' i j t ht
    rw [List.foldl_append]
    obtain ⟨sfx, hsfx⟩ := codexFold_messages_append sid model rs'
      (rs.foldl (codexStep sid model) codexInit)
    rw [hsfx, getTool_append_left _ _ _ _ (getTool_lt_length _ i j t ht)]
    exact ht
  · intro sid model rs X hres m hm t ht hid
    have h0 : UnknownXCodex X codexInit := by
      constructor
      · intro m' hm0
        exact absurd hm0 (List.not_mem_nil m')
      · intro t' ht0
        exact absurd ht0 (List.not_mem_nil t')
    have h1 := codexFold_unknownX sid model rs X hres codexInit h0
    simp only [codex_parse_session] at hm
    by_cases hc : ((rs.foldl (codexStep sid model) codexInit).in_turn
        || !(rs.foldl (codexStep sid model) codexInit).current_tool_calls.isEmpty) = true
    · rw [if_pos hc] at hm
      exact (flush_unknownX sid model _ X h1).1 m hm t ht hid
    · rw [if_neg hc] at hm
      exact h1.1 m hm t ht hid

/-- Codex stream for the C3 counterexample: a `function_call` for id
`"X"`, an `agent_message` that flushes the turn, then the
`function_call_output` for `"X"` arriving after the flush. -/
def codexLateResult : List XRecord :=
  [XRecord.functionCall none "X" "shell" none,
   XRecord.agentMessage,
   XRecord.functionCallOutput "X" "all good"]

/-- C3 counterexample: the output record paired with call `"X"` is
observed in the stream, yet the parsed session leaves the call's status
`unknown` — the output arrived after the turn was flushed, and
`function_call_output` only updates the in-turn buffer, never the
already-flushed messages. -/
theorem codex_late_result_stays_unknown :
    XRecord.functionCallOutput "X" "all good" ∈ codexLateResult
    ∧ ((codex_parse_session "s" none codexLateResult).map
        fun m => m.tool_calls.map fun t => (t.call_id, t.status))
      = [[("X", ToolStatus.unknown)]] := by
  constructor
  · simp [codexLateResult]
  · rfl

/-- Claude file for the C3 witness: one tool call, resolved by the next
user record. -/
def c3ClaudeRecords : List CRecord :=
  [CRecord.assistant "a1" none none none none [("A", "bash", none)] false none,
   CRecord.user "u1" none none [("A", false, none)]]

/-- Later records of the C3 witness: a duplicate result for `"A"`. -/
def c3ClaudeLate : List CRecord :=
  [CRecord.user "u2" none none [("A", true, some "boom")]]

/-- The resolved tool the C3 witness expects to stay frozen. -/
def c3SuccessTool : CanonicalTool :=
  { tool_name := "bash", call_id := "A", status := ToolStatus.success
  , error_class := none, error_message := none, args_summary := none
  , output_summary := none, duration_ms := none }

/-- A still-unresolved Claude tool call. -/
def c3UnknownTool : CanonicalTool :=
  { tool_name := "bash", call_id := "A", status := ToolStatus.unknown
  , error_class := none, error_message := none, args_summary := none
  , output_summary := none, duration_ms := none }

/-- Claude main file with a tool call and no result for it. -/
def c3ClaudeMain : List CRecord :=
  [CRecord.assistant "a1" none none none none [("A", "bash", none)] false none]

/-- The message `claude_parse_session` produces for `c3ClaudeMain`. -/
def c3ClaudeMsg : CanonicalMessage :=
  { message_id := "a1", session_id := "s", parent_id := none, sequence := 1
  , role := Role.assistant, model := none, ts := none, usage := none
  , tool_calls := [c3UnknownTool], is_sidechain := false, finish_reason := none }

/-- Codex stream flushing one unresolved call. -/
def c3CodexRecords : List XRecord :=
  [XRecord.functionCall none "X" "sh" none, XRecord.agentMessage]

/-- Later Codex records of the C3 witness. -/
def c3CodexLate : List XRecord :=
  [XRecord.functionCallOutput "X" "out"]

/-- The unresolved Codex tool call of the C3 witness. -/
def c3CodexTool : CanonicalTool :=
  { tool_name := "sh", call_id := "X", status := ToolStatus.unknown
  , error_class := none, error_message := none, args_summary := none
  , output_summary := none, duration_ms := none }

/-- Codex stream with a call and no output for it. -/
def c3CodexNoResult : List XRecord :=
  [XRecord.functionCall none "X" "sh" none]

/-- The message `codex_parse_session` produces for `c3CodexNoResult`. -/
def c3CodexMsg : CanonicalMessage :=
  { message_id := "asst-1", session_id := "s", parent_id := none, sequence := 1
  , role := Role.assistant, model := none, ts := none, usage := none
  , tool_calls := [c3CodexTool], is_sidechain := false, finish_reason := none }

/-- Witness for `tool_status_transition_spec`: each conjunct applied at a
concrete input with its hypotheses discharged. -/
theorem tool_status_transition_spec_witness :
    (getTool (((c3ClaudeRecords ++ c3ClaudeLate).foldl
        (claudeFileStep "s" false) ⟨[], 0, []⟩).messages) 0 0 = some c3SuccessTool)
    ∧ (c3UnknownTool.status = ToolStatus.unknown)
    ∧ (getTool (((c3CodexRecords ++ c3CodexLate).foldl
        (codexStep "s" none) codexInit).messages) 0 0 = some c3CodexTool)
    ∧ (c3CodexTool.status = ToolStatus.unknown) :=
  ⟨tool_status_transition_spec.1 "s" false c3ClaudeRecords c3ClaudeLate 0 0 c3SuccessTool
      (by with_unfolding_all decide) (by decide),
   tool_status_transition_spec.2.1 "s" c3ClaudeMain [] "A" (by decide)
      (fun f hf => absurd hf (List.not_mem_nil f))
      c3ClaudeMsg (by with_unfolding_all decide) c3UnknownTool
      (by with_unfolding_all decide) rfl,
   tool_status_transition_spec.2.2.1 "s" none c3CodexRecords c3CodexLate 0 0 c3CodexTool
      (by with_unfolding_all decide),
   tool_status_transition_spec.2.2.2 "s" none c3CodexNoResult "X" (by decide)
      c3CodexMsg (by with_unfolding_all decide) c3CodexTool
      (by with_unfolding_all decide) rfl⟩
